import Mathlib

/-
Verification of the hantu fuzzer core against its specification.

The Rust sources are shallowly embedded:
* byte buffers (`Vec<u8>`) become `List Nat` whose entries model `u8` values;
* machine integers become `Nat` / `Int` with explicit `% 2^w` where the source
  wraps; operations the source performs with `wrapping_*` are modelled modulo
  the type width, and fixed-width casts (`as u8`, masking) become `% 256` etc.;
* fallible operations return `Option`: a `none` models a Rust panic
  (assertion failure, out-of-bounds index or slice, arithmetic that aborts),
  so theorems about "the function returned normally" are conditioned on a
  `some` result.  Slice indexing and slice writes are translated through
  checked helpers (`sliceGet`, `setAt`, `writeSlice`); a partially performed
  loop of writes that would panic midway in Rust is modelled as an
  all-or-nothing `none`, which agrees with the source on every run that
  returns normally;
* the PRNG trait `GeneratorTrait` (`fn rand(&mut self) -> usize`) is modelled
  as an arbitrary pre-drawn output stream together with a position, so every
  theorem quantified over `Rng` covers all nine concrete generators of the
  source; the `Xorshift64` generator is additionally embedded concretely.
-/

namespace Hantu

/-! ### Byte-level and list-level primitives -/

/-- Wrapping `u8` bitwise negation: `!b` on a `u8` value. -/
def not8 (b : Nat) : Nat := 255 - b % 256

/-- Checked slice read `l[a..b]`: Rust panics when `a > b` or `b > l.len()`. -/
def sliceGet (l : List Nat) (a b : Nat) : Option (List Nat) :=
  if a ≤ b ∧ b ≤ l.length then some ((l.take b).drop a) else none

/-- Checked element write `l[i] = v`: Rust panics when `i ≥ l.len()`. -/
def setAt (l : List Nat) (i v : Nat) : Option (List Nat) :=
  if i < l.length then some (l.set i v) else none

/-- Checked element read `l[i]`: Rust panics when `i ≥ l.len()`. -/
def getAt (l : List Nat) (i : Nat) : Option Nat := l.get? i

/-- Checked slice overwrite `l[a..a+src.len()].copy_from_slice(&src)`. -/
def writeSlice (l : List Nat) (a : Nat) (src : List Nat) : Option (List Nat) :=
  if a + src.length ≤ l.length then
    some (l.take a ++ src ++ l.drop (a + src.length))
  else none

/-- Exchange of the elements at positions `i` and `j` (`slice::swap`,
`ptr::swap` on two in-bounds indices). -/
def listSwap (l : List Nat) (i j : Nat) : List Nat :=
  (l.set i (l.getD j 0)).set j (l.getD i 0)

/-- Little-endian byte decoding: `uN::from_le_bytes`. -/
def decodeLE : List Nat → Nat
  | [] => 0
  | b :: rest => b % 256 + 256 * decodeLE rest

/-- Big-endian byte decoding: `uN::from_be_bytes`. -/
def decodeBE (l : List Nat) : Nat := decodeLE l.reverse

theorem sliceGet_eq_some {l : List Nat} {a b : Nat} {r : List Nat}
    (h : sliceGet l a b = some r) : a ≤ b ∧ b ≤ l.length ∧ r = (l.take b).drop a := by
  unfold sliceGet at h
  split at h
  · rename_i hc
    exact ⟨hc.1, hc.2, (Option.some.injEq _ _ ▸ h).symm⟩
  · exact absurd h (by simp)

theorem length_sliceGet {l : List Nat} {a b : Nat} {r : List Nat}
    (h : sliceGet l a b = some r) : r.length = b - a := by
  obtain ⟨hab, hb, rfl⟩ := sliceGet_eq_some h
  simp [List.length_take]
  omega

theorem length_setAt {l : List Nat} {i v : Nat} {r : List Nat}
    (h : setAt l i v = some r) : r.length = l.length := by
  unfold setAt at h
  split at h
  · cases h; simp
  · exact absurd h (by simp)

theorem length_writeSlice {l : List Nat} {a : Nat} {src r : List Nat}
    (h : writeSlice l a src = some r) : r.length = l.length := by
  unfold writeSlice at h
  split at h
  · rename_i hc
    cases h
    simp [List.length_take, List.length_drop]
    omega
  · exact absurd h (by simp)

theorem length_listSwap (l : List Nat) (i j : Nat) :
    (listSwap l i j).length = l.length := by
  simp [listSwap]

theorem decodeLE_lt {l : List Nat} : decodeLE l < 256 ^ l.length := by
  induction l with
  | nil => simp [decodeLE]
  | cons b rest ih =>
      have hb : b % 256 < 256 := Nat.mod_lt _ (by omega)
      simp only [decodeLE, List.length_cons, pow_succ]
      calc b % 256 + 256 * decodeLE rest
          ≤ 255 + 256 * decodeLE rest := by omega
        _ < 256 * (decodeLE rest + 1) := by omega
        _ ≤ 256 * 256 ^ rest.length := by
            have : decodeLE rest + 1 ≤ 256 ^ rest.length := ih
            exact Nat.mul_le_mul_left _ this
        _ = 256 ^ rest.length * 256 := by ring

theorem decodeBE_lt {l : List Nat} : decodeBE l < 256 ^ l.length := by
  have := @decodeLE_lt l.reverse
  simpa [decodeBE] using this

/-! ### The PRNG layer

The source defines `trait GeneratorTrait { fn rand(&mut self) -> usize; }` and
a wrapper `Rng<G>` with helper draws (`src/libs/prng/src/lib.rs`).  A state of
an arbitrary generator is modelled as the infinite stream of outputs it is
going to produce, plus a cursor. -/

structure Rng where
  exponential : Bool
  stream : Nat → Nat
  pos : Nat

/-- One `rand()` call: emit the next stream value and advance. -/
def Rng.next (r : Rng) : Nat × Rng := (r.stream r.pos, { r with pos := r.pos + 1 })

/-- Embedding of `Rng::rand_range(min, max)`: asserts `max >= min` (modelled by
`none`), returns `min` when `min == max` without drawing, else
`min + rand() % (max - min)`. -/
def randRange (r : Rng) (lo hi : Nat) : Option (Nat × Rng) :=
  if hi < lo then none
  else if lo = hi then some (lo, r)
  else
    let (v, r') := r.next
    some (lo + v % (hi - lo), r')

/-- Embedding of `Rng::bool()`: `0 == rand() % 2`. -/
def rbool (r : Rng) : Bool × Rng :=
  let (v, r') := r.next
  (v % 2 == 0, r')

/-- Embedding of `Rng::bool_chance(prob)`: asserts `prob > 0`, then
`0 == rand_range(0, prob)`. -/
def boolChance (r : Rng) (prob : Nat) : Option (Bool × Rng) := do
  if prob = 0 then none
  else
    let (v, r') ← randRange r 0 prob
    some (v == 0, r')

/-- Embedding of `Rng::rand_byte()`: `(rand() % 255) as u8`. -/
def randByte (r : Rng) : Nat × Rng :=
  let (v, r') := r.next
  (v % 255, r')

/-- Embedding of `Rng::rand_byte_vec(size)`: `size` independent `rand_byte`
draws, in order. -/
def randByteVec (r : Rng) : Nat → List Nat × Rng
  | 0 => ([], r)
  | n + 1 =>
    let (b, r') := randByte r
    let (rest, r'') := randByteVec r' n
    (b :: rest, r'')

/-- Embedding of `Rng::rand_exp(min, max)`: plain `rand_range` when the
exponential flag is off; otherwise a fair coin between `rand_range(min, max)`
and `rand_range(min, rand_range(min, max))`. -/
def randExp (r : Rng) (lo hi : Nat) : Option (Nat × Rng) :=
  if !r.exponential then randRange r lo hi
  else
    let (b, r1) := rbool r
    if b then randRange r1 lo hi
    else do
      let (x, r2) ← randRange r1 lo hi
      randRange r2 lo x

/-- Embedding of `Rng::pick(entries)`: draws `rand_range(0, len)` and takes
that element; `nth(..).unwrap()` panics on an empty iterable. -/
def pickL {α : Type} (r : Rng) (l : List α) : Option (α × Rng) := do
  let (i, r') ← randRange r 0 l.length
  match l.get? i with
  | some a => some (a, r')
  | none => none

/-- Fisher–Yates inner loop of `Rng::shuffle`: for each index `i` of the given
descending index list, draw `j = rand_range(0, i + 1)` and swap `i` with `j`. -/
def fyLoop (r : Rng) (l : List Nat) : List Nat → Option (List Nat × Rng)
  | [] => some (l, r)
  | i :: rest => do
    let (j, r') ← randRange r 0 (i + 1)
    fyLoop r' (listSwap l i j) rest

/-- Embedding of `Rng::shuffle(entries)`: a slice of length 2 is swapped
unconditionally; otherwise Fisher–Yates over `i in (1..len).rev()`. -/
def shuffle (r : Rng) (l : List Nat) : Option (List Nat × Rng) :=
  if l.length == 2 then some (listSwap l 0 1, r)
  else fyLoop r l ((List.range l.length).reverse.dropLast)

theorem randRange_bounds {r : Rng} {lo hi : Nat} {v : Nat} {r' : Rng}
    (h : randRange r lo hi = some (v, r')) :
    lo ≤ v ∧ (lo < hi → v < hi) ∧ (¬ lo < hi → v = lo) := by
  unfold randRange at h
  split at h
  · exact absurd h (by simp)
  · split at h
    · rename_i h1 h2
      cases h
      omega
    · rename_i h1 h2
      simp only [Rng.next] at h
      cases h
      have hlt : r.stream r.pos % (hi - lo) < hi - lo := Nat.mod_lt _ (by omega)
      omega

theorem randExp_bounds {r : Rng} {lo hi : Nat} {v : Nat} {r' : Rng}
    (h : randExp r lo hi = some (v, r')) :
    lo ≤ v ∧ (lo < hi → v < hi) ∧ (¬ lo < hi → v = lo) := by
  unfold randExp at h
  split at h
  · exact randRange_bounds h
  · split at h
    · split at h
      · exact randRange_bounds h
      · simp only [Option.bind_eq_bind, Option.bind_eq_some] at h
        obtain ⟨⟨x, r2⟩, hx, h2⟩ := h
        have hb1 := randRange_bounds hx
        have hb2 := randRange_bounds h2
        omega

theorem pickL_mem {α : Type} {r : Rng} {l : List α} {a : α} {r' : Rng}
    (h : pickL r l = some (a, r')) : a ∈ l := by
  unfold pickL at h
  simp only [Option.bind_eq_bind, Option.bind_eq_some] at h
  obtain ⟨⟨i, r1⟩, _, h2⟩ := h
  split at h2
  · rename_i hget
    cases h2
    exact List.get?_mem hget
  · exact absurd h2 (by simp)

theorem length_randByteVec (r : Rng) (n : Nat) :
    (randByteVec r n).1.length = n := by
  induction n generalizing r with
  | zero => simp [randByteVec]
  | succ n ih => simp [randByteVec, ih]

theorem randByte_lt (r : Rng) : (randByte r).1 < 255 := by
  simp only [randByte]
  exact Nat.mod_lt _ (by omega)

theorem mem_randByteVec {r : Rng} {n : Nat} {b : Nat}
    (h : b ∈ (randByteVec r n).1) : b < 255 := by
  induction n generalizing r with
  | zero => simp [randByteVec] at h
  | succ n ih =>
      simp only [randByteVec, List.mem_cons] at h
      rcases h with h | h
      · subst h; exact randByte_lt r
      · exact ih h

theorem listSwap_perm (l : List Nat) (i j : Nat) (hi : i < l.length) (hj : j < l.length) :
    (listSwap l i j).Perm l := by
  rw [List.perm_iff_count]
  intro a
  unfold listSwap
  rw [List.count_set _ _ _ _ (by simpa using hj), List.count_set _ _ _ _ hi]
  rw [List.getElem_set]
  simp only [List.getD_eq_getElem l 0 hj, List.getD_eq_getElem l 0 hi]
  have hcnt1 : l[i] = a → 1 ≤ List.count a l := fun h =>
    List.count_pos_iff_mem.mpr (h ▸ List.getElem_mem hi)
  have hcnt2 : l[j] = a → 1 ≤ List.count a l := fun h =>
    List.count_pos_iff_mem.mpr (h ▸ List.getElem_mem hj)
  by_cases hij : i = j
  · subst hij
    simp only [ite_self, beq_iff_eq]
    by_cases h1 : l[i] = a
    · have := hcnt1 h1
      simp only [h1, if_true]
      omega
    · simp only [if_neg h1]
      omega
  · simp only [if_neg hij, beq_iff_eq]
    by_cases h1 : l[i] = a
    · have := hcnt1 h1
      by_cases h2 : l[j] = a
      · simp only [h1, h2, if_true]
        omega
      · simp only [h1, if_neg h2, if_true]
        omega
    · by_cases h2 : l[j] = a
      · simp only [if_neg h1, h2, if_true]
        omega
      · simp only [if_neg h1, if_neg h2]
        omega

theorem fyLoop_perm :
    ∀ (idxs : List Nat) (r : Rng) (l : List Nat) (res : List Nat × Rng),
      (∀ i ∈ idxs, i < l.length) → fyLoop r l idxs = some res → res.1.Perm l := by
  intro idxs
  induction idxs with
  | nil =>
      intro r l res _ heq
      cases heq
      exact List.Perm.refl _
  | cons i rest ih =>
      intro r l res hmem heq
      simp only [fyLoop, Option.bind_eq_bind, Option.bind_eq_some] at heq
      obtain ⟨⟨j, r'⟩, hj, hrec⟩ := heq
      have hjb := randRange_bounds hj
      have hilt : i < l.length := hmem i (by simp)
      have hjlt : j < l.length := by omega
      have hperm := ih r' (listSwap l i j) res
        (by intro k hk; rw [length_listSwap]; exact hmem k (by simp [hk])) hrec
      exact hperm.trans (listSwap_perm l i j hilt hjlt)

/-! ### The Xorshift64 generator and seed expansion

Embedding of `src/libs/prng/src/xorshift.rs` and of the `get_seeds!` macro in
`src/libs/prng/src/seed.rs`.  The hardware timestamp counter read
(`get_rdtsc()`), an input external to the program, is passed explicitly as
`tsc`; it is consulted only when the initial seed is zero. -/

/-- Fixed entropy constant `ENTROPY` from `src/libs/prng/src/lib.rs`. -/
def ENTROPY : Nat := 0x5fd89eda3130256d

/-- Embedding of `generate_seeds(init_seed, num_seeds)`, with the
`get_rdtsc()` value passed as `tsc`.  Asserts `1 <= num_seeds <= 4`. -/
def generateSeeds (initSeed tsc num : Nat) : Option (List Nat) :=
  if 1 ≤ num ∧ num ≤ 4 then
    let first := if initSeed = 0 then tsc ^^^ 0xdeadbeefcafebabe else initSeed
    some (seedLoop first num 0)
  else none
where
  /-- Inner loop: `s_i = s_{i-1} XOR ENTROPY XOR i`. -/
  seedLoop (last : Nat) : Nat → Nat → List Nat
    | 0, _ => []
    | n + 1, i =>
      let newSeed := last ^^^ ENTROPY ^^^ i
      newSeed :: seedLoop newSeed n (i + 1)

/-- State of the `Xorshift64` generator. -/
structure Xorshift64 where
  state : Nat

/-- Embedding of `Xorshift64::rand`: returns the current state, then updates
it by the three xorshift steps with shifts 13, 17 (right) and 43, each
left-shift wrapped to 64 bits. -/
def Xorshift64.rand (g : Xorshift64) : Nat × Xorshift64 :=
  let val := g.state
  let s1 := (g.state ^^^ (g.state <<< 13)) % 2 ^ 64
  let s2 := s1 ^^^ (s1 >>> 17)
  let s3 := (s2 ^^^ (s2 <<< 43)) % 2 ^ 64
  (val, ⟨s3⟩)

/-- Embedding of `Xorshift64::new(seed)`: `state` is the single seed produced
by `get_seeds!(seed, 1)`; `tsc` is the timestamp-counter value read when
`seed == 0`. -/
def Xorshift64.new (seed tsc : Nat) : Xorshift64 :=
  ⟨((generateSeeds seed tsc 1).getD []).headD 0⟩

/-- Stream of `rand()` outputs of a `Xorshift64` generator. -/
def xorshiftOutput (g : Xorshift64) : Nat → Nat
  | 0 => g.rand.1
  | n + 1 => xorshiftOutput g.rand.2 n

/-- Embedding of `MutationEngine::ensure_printable`: draws `rand_byte()` and,
when the printable flag is set, maps it into the printable range via
`b.wrapping_sub(32) % 95 + 32` (the wrapping subtraction is `(b + 224) % 256`
on the byte value). -/
def ensurePrintable (printable : Bool) (r : Rng) : Nat × Rng :=
  let (b, r') := randByte r
  (if printable then (b + 224) % 256 % 95 + 32 else b, r')

/-! ### The test-case buffer

Embedding of `src/libs/test_case/src/lib.rs`. -/

structure TestCase where
  data : List Nat
  size : Nat
  dataPtr : Nat
  energy : Nat
  accessed : List Nat
deriving DecidableEq

/-- Embedding of `TestCase::new(data)`. -/
def TestCase.new (d : List Nat) : TestCase :=
  { data := d, size := d.length, dataPtr := 0, energy := 0, accessed := [] }

/-- Result of a typed consumer call: normal return with the updated buffer,
the `InsufficientData`-style error (`Error::new(..)`), or a Rust panic. -/
inductive CResult (α : Type) where
  | ok (v : α) (tc : TestCase)
  | insufficient
  | panicked
deriving DecidableEq

/-- Embedding of `TestCase::consume_byte`: checks `1 + data_ptr <= size`
(`_get_max` / `is_size_sane`), reads `data[data_ptr]` (panic when out of
bounds) and advances the cursor. -/
def TestCase.consumeByte (tc : TestCase) : CResult Nat :=
  if tc.dataPtr + 1 > tc.size then .insufficient
  else
    match tc.data.get? tc.dataPtr with
    | some b => .ok b { tc with dataPtr := tc.dataPtr + 1 }
    | none => .panicked

/-- Loop body of `TestCase::consume_bytes`: the output vector is pre-filled
with zeroes and an entry is only overwritten when `consume_byte` succeeds. -/
def TestCase.consumeBytesLoop : Nat → TestCase → CResult (List Nat)
  | 0, tc => .ok [] tc
  | n + 1, tc =>
    match tc.consumeByte with
    | .ok b tc' =>
        match consumeBytesLoop n tc' with
        | .ok rest tc'' => .ok (b :: rest) tc''
        | .insufficient => .insufficient
        | .panicked => .panicked
    | .insufficient =>
        match consumeBytesLoop n tc with
        | .ok rest tc'' => .ok (0 :: rest) tc''
        | .insufficient => .insufficient
        | .panicked => .panicked
    | .panicked => .panicked

/-- Embedding of `TestCase::consume_bytes(num)`: fails with
`InsufficientData` when `num + data_ptr > size`, otherwise consumes exactly
`num` bytes. -/
def TestCase.consumeBytes (tc : TestCase) (num : Nat) : CResult (List Nat) :=
  if num + tc.dataPtr > tc.size then .insufficient
  else TestCase.consumeBytesLoop num tc

/-- Embedding of `TestCase::_consume_int_u::<T>` for a `T` of `bytes` bytes:
consume `bytes` bytes and decode them little- or big-endian.  The source
dispatches on `size_of::<T>() ∈ {1,2,4,8,16}` and applies the corresponding
`uN::from_le_bytes` / `uN::from_be_bytes`, all of which agree with the
positional decoders used here. -/
def TestCase.consumeIntU (tc : TestCase) (bytes : Nat) (le : Bool) : CResult Nat :=
  match tc.consumeBytes bytes with
  | .ok vals tc' => .ok (if le then decodeLE vals else decodeBE vals) tc'
  | .insufficient => .insufficient
  | .panicked => .panicked

/-- Embedding of `TestCase::_consume_int_s::<T>`: the unsigned draw reduced
modulo `max_val = 2^(bits-1) - 1`.  The result is non-negative, so the value
of the signed `T` equals this natural number. -/
def TestCase.consumeIntS (tc : TestCase) (bytes : Nat) (le : Bool) : CResult Nat :=
  match tc.consumeIntU bytes le with
  | .ok u tc' => .ok (u % (2 ^ (8 * bytes - 1) - 1)) tc'
  | .insufficient => .insufficient
  | .panicked => .panicked

/-- Embedding of `TestCase::consume_int::<T>`: dispatch on signedness of `T`. -/
def TestCase.consumeInt (tc : TestCase) (bytes : Nat) (signed le : Bool) : CResult Nat :=
  if signed then tc.consumeIntS bytes le else tc.consumeIntU bytes le

/-- Two's-complement wrap of an integer into `bits` bits
(`wrapping_sub` and friends on a signed `T`). -/
def wrapSigned (bits : Nat) (x : Int) : Int :=
  (x + 2 ^ (bits - 1)) % (2 ^ bits : Int) - 2 ^ (bits - 1)

/-- Semantics of Rust's `rem_euclid`: remainder in `[0, |b|)`; the source
reaches it with a non-zero divisor only. -/
def rustRemEuclid (a b : Int) : Int := a % (b.natAbs : Int)

/-- Embedding of `TestCase::consume_int_range::<T>` for unsigned `T` of
`bytes` bytes: `min == max` short-circuits, `min > max` hits the
`assert!(min < max)` panic, otherwise the unsigned draw is reduced by
`rem_euclid(range + 1)` unless `range` is the whole type. -/
def TestCase.consumeIntRangeU (tc : TestCase) (bytes : Nat) (le : Bool)
    (lo hi : Nat) : CResult Nat :=
  if hi = lo then .ok lo tc
  else if ¬ lo < hi then .panicked
  else
    let range := hi - lo
    match tc.consumeIntU bytes le with
    | .ok u tc' =>
        let wrapped := if range = 2 ^ (8 * bytes) - 1 then u else u % (range + 1)
        .ok (lo + wrapped) tc'
    | .insufficient => .insufficient
    | .panicked => .panicked

/-- Embedding of `TestCase::consume_int_range::<T>` for signed `T` of
`bytes` bytes (`bits = 8*bytes`): `range = max.wrapping_sub(&min)`; the
signed draw is kept as-is when `range` equals `T::max_value()` or
`T::max_value().wrapping_sub(&T::min_value())`, else reduced by
`rem_euclid(range + 1)`; the result is `min + wrapped`. -/
def TestCase.consumeIntRangeS (tc : TestCase) (bytes : Nat) (le : Bool)
    (lo hi : Int) : CResult Int :=
  if hi = lo then .ok lo tc
  else if ¬ lo < hi then .panicked
  else
    let bits := 8 * bytes
    let maxS : Int := 2 ^ (bits - 1) - 1
    let minS : Int := -(2 ^ (bits - 1) : Int)
    let range := wrapSigned bits (hi - lo)
    match tc.consumeIntS bytes le with
    | .ok u tc' =>
        let s : Int := u
        let wrapped :=
          if range = maxS ∨ range = wrapSigned bits (maxS - minS) then s
          else rustRemEuclid s (range + 1)
        .ok (lo + wrapped) tc'
    | .insufficient => .insufficient
    | .panicked => .panicked

/-- Embedding of `TestCase::consume_float`, with the returned `f64` carried as
its IEEE-754 bit pattern (`f64::from_bits` is a bijection between 64-bit
patterns and `f64` values, so nothing is lost).  Zero remaining bytes yields
`0.0` (bits 0); fewer than 8 remaining bytes are read into a zero buffer that
is then reversed and decoded little-endian, and the cursor jumps to `size`;
otherwise 8 bytes are decoded little-endian. -/
def TestCase.consumeFloatBits (tc : TestCase) : CResult Nat :=
  if tc.dataPtr = tc.size then .ok 0 tc
  else if tc.dataPtr + 8 > tc.size then
    match sliceGet tc.data tc.dataPtr (tc.dataPtr + (tc.size - tc.dataPtr)) with
    | some ds =>
        let k := min 8 ds.length
        let cdata := ds.take k ++ List.replicate (8 - k) 0
        .ok (decodeLE cdata.reverse) { tc with dataPtr := tc.size }
    | none => .panicked
  else
    match sliceGet tc.data tc.dataPtr (tc.dataPtr + 8) with
    | some ds => .ok (decodeLE ds) { tc with dataPtr := tc.dataPtr + 8 }
    | none => .panicked

/-- Reference semantics of a finite IEEE-754 binary64 bit pattern as a
rational number (sign, 11-bit exponent, 52-bit mantissa).  The exponent 2047
(infinities and NaNs) is outside the finite range and mapped to 0; no theorem
relies on it. -/
def decodeBinary64 (b : Nat) : ℚ :=
  let sgn : ℚ := if b / 2 ^ 63 % 2 = 1 then -1 else 1
  let e : Nat := b / 2 ^ 52 % 2 ^ 11
  let m : Nat := b % 2 ^ 52
  if e = 0 then sgn * (m : ℚ) / 2 ^ 52 * (2 : ℚ) ^ (-(1022 : ℤ))
  else if e = 2047 then 0
  else sgn * (1 + (m : ℚ) / 2 ^ 52) * (2 : ℚ) ^ ((e : ℤ) - 1023)

theorem decodeLE_replicate_zero_append (n : Nat) (l : List Nat) :
    decodeLE (List.replicate n 0 ++ l) = 256 ^ n * decodeLE l := by
  induction n with
  | zero => simp
  | succ n ih =>
      rw [List.replicate_succ, List.cons_append]
      show 0 % 256 + 256 * decodeLE (List.replicate n 0 ++ l) = 256 ^ (n + 1) * decodeLE l
      rw [ih, pow_succ]
      ring

theorem consumeBytesLoop_ok {n : Nat} {tc : TestCase} {l : List Nat} {tc' : TestCase}
    (h : TestCase.consumeBytesLoop n tc = .ok l tc') :
    l.length = n ∧ tc'.data = tc.data ∧ tc'.size = tc.size ∧
      tc.dataPtr ≤ tc'.dataPtr ∧ tc'.dataPtr ≤ tc.dataPtr + n ∧
      (∀ b ∈ l, b = 0 ∨ b ∈ tc.data) := by
  induction n generalizing tc l tc' with
  | zero =>
      cases h
      simp
  | succ n ih =>
      unfold TestCase.consumeBytesLoop at h
      split at h
      · rename_i b tcb hb
        split at h
        · rename_i rest tc2 hrec
          cases h
          have hby : b ∈ tc.data ∧ tcb.data = tc.data ∧ tcb.size = tc.size ∧
              tcb.dataPtr = tc.dataPtr + 1 := by
            unfold TestCase.consumeByte at hb
            split at hb
            · exact absurd hb (by simp)
            · cases hget : tc.data.get? tc.dataPtr with
              | some v =>
                  rw [hget] at hb
                  cases hb
                  exact ⟨List.get?_mem hget, rfl, rfl, rfl⟩
              | none => rw [hget] at hb; exact absurd hb (by simp)
          obtain ⟨hmem, hdata, hsize, hptr⟩ := hby
          have := ih hrec
          refine ⟨by simp [this.1], by rw [this.2.1, hdata], by rw [this.2.2.1, hsize], ?_, ?_, ?_⟩
          · omega
          · omega
          · intro x hx
            rcases List.mem_cons.mp hx with rfl | hx
            · exact Or.inr hmem
            · rcases this.2.2.2.2.2 x hx with h0 | hm
              · exact Or.inl h0
              · exact Or.inr (hdata ▸ hm)
        · exact absurd h (by simp)
        · exact absurd h (by simp)
      · rename_i hb
        split at h
        · rename_i rest tc2 hrec
          cases h
          have := ih hrec
          refine ⟨by simp [this.1], this.2.1, this.2.2.1, ?_, ?_, ?_⟩
          · omega
          · omega
          · intro x hx
            rcases List.mem_cons.mp hx with rfl | hx
            · exact Or.inl rfl
            · exact this.2.2.2.2.2 x hx
        · exact absurd h (by simp)
        · exact absurd h (by simp)
      · exact absurd h (by simp)

theorem consumeBytes_ok {tc : TestCase} {num : Nat} {l : List Nat} {tc' : TestCase}
    (h : tc.consumeBytes num = .ok l tc') :
    l.length = num ∧ tc'.data = tc.data ∧ tc'.size = tc.size ∧
      (∀ b ∈ l, b = 0 ∨ b ∈ tc.data) := by
  unfold TestCase.consumeBytes at h
  split at h
  · exact absurd h (by simp)
  · have := consumeBytesLoop_ok h
    exact ⟨this.1, this.2.1, this.2.2.1, this.2.2.2.2.2⟩

theorem consumeIntU_lt {tc : TestCase} {bytes : Nat} {le : Bool} {v : Nat} {tc' : TestCase}
    (h : tc.consumeIntU bytes le = .ok v tc') : v < 2 ^ (8 * bytes) := by
  unfold TestCase.consumeIntU at h
  cases hc : tc.consumeBytes bytes with
  | ok vals tc2 =>
      rw [hc] at h
      cases h
      obtain ⟨hlen, _, _, hmem⟩ := consumeBytes_ok hc
      have h256 : (256 : Nat) ^ bytes = 2 ^ (8 * bytes) := by
        rw [show (256 : Nat) = 2 ^ 8 by norm_num, ← pow_mul]
      split
      · exact h256 ▸ hlen ▸ decodeLE_lt
      · exact h256 ▸ hlen ▸ decodeBE_lt
  | insufficient => rw [hc] at h; exact absurd h (by simp)
  | panicked => rw [hc] at h; exact absurd h (by simp)

theorem consumeIntS_le {tc : TestCase} {bytes : Nat} {le : Bool} {v : Nat} {tc' : TestCase}
    (hb : 1 ≤ bytes)
    (h : tc.consumeIntS bytes le = .ok v tc') : v ≤ 2 ^ (8 * bytes - 1) - 2 := by
  unfold TestCase.consumeIntS at h
  cases hc : tc.consumeIntU bytes le with
  | ok u tc2 =>
      rw [hc] at h
      cases h
      have hm : (2 : Nat) ^ (8 * bytes - 1) - 1 ≥ 2 := by
        have : (2 : Nat) ^ 7 ≤ 2 ^ (8 * bytes - 1) :=
          Nat.pow_le_pow_right (by omega) (by omega)
        omega
      have := Nat.mod_lt u (show 0 < 2 ^ (8 * bytes - 1) - 1 by omega)
      omega
  | insufficient => rw [hc] at h; exact absurd h (by simp)
  | panicked => rw [hc] at h; exact absurd h (by simp)

theorem wrapSigned_spec {bits : Nat} (hb : 1 ≤ bits) (D : Int)
    (h0 : 0 ≤ D) (h1 : D ≤ 2 ^ bits - 1) :
    wrapSigned bits D = if D < 2 ^ (bits - 1) then D else D - 2 ^ bits := by
  have h2 : (2 : Int) ^ bits = 2 * 2 ^ (bits - 1) := by
    conv_lhs => rw [show bits = (bits - 1) + 1 by omega]
    rw [pow_succ]
    ring
  unfold wrapSigned
  split
  · rename_i hlt
    rw [Int.emod_eq_of_lt (by omega) (by omega)]
    ring
  · rename_i hge
    push_neg at hge
    have : D + 2 ^ (bits - 1) = (D - 2 ^ (bits - 1)) + 2 ^ bits * 1 := by
      rw [h2]
      ring
    rw [this, Int.add_mul_emod_self_left,
      Int.emod_eq_of_lt (by omega) (by omega)]
    omega

theorem consumeIntRangeU_ok {tc : TestCase} {bytes : Nat} {le : Bool}
    {lo hi v : Nat} {tc' : TestCase}
    (hhi : hi < 2 ^ (8 * bytes))
    (h : tc.consumeIntRangeU bytes le lo hi = .ok v tc') :
    lo ≤ v ∧ v ≤ hi := by
  unfold TestCase.consumeIntRangeU at h
  split at h
  · rename_i heq
    cases h
    omega
  · split at h
    · exact absurd h (by simp)
    · rename_i hne hlt
      rw [not_not] at hlt
      cases hc : tc.consumeIntU bytes le with
      | ok u tc2 =>
          rw [hc] at h
          simp only [CResult.ok.injEq] at h
          obtain ⟨rfl, rfl⟩ := h
          have hu := consumeIntU_lt hc
          split
          · rename_i hrange
            omega
          · have := Nat.mod_lt u (show 0 < hi - lo + 1 by omega)
            omega
      | insufficient => rw [hc] at h; exact absurd h (by simp)
      | panicked => rw [hc] at h; exact absurd h (by simp)

theorem consumeIntRangeS_ok {tc : TestCase} {bytes : Nat} {le : Bool}
    {lo hi v : Int} {tc' : TestCase}
    (hb : 1 ≤ bytes)
    (hlo : -(2 ^ (8 * bytes - 1) : Int) ≤ lo) (hhi : hi ≤ 2 ^ (8 * bytes - 1) - 1)
    (h : tc.consumeIntRangeS bytes le lo hi = .ok v tc') :
    lo ≤ v ∧ v ≤ hi := by
  unfold TestCase.consumeIntRangeS at h
  split at h
  · rename_i heq
    cases h
    omega
  · split at h
    · exact absurd h (by simp)
    · rename_i hne hlt
      rw [not_not] at hlt
      cases hc : tc.consumeIntS bytes le with
      | ok u tc2 =>
          rw [hc] at h
          simp only [CResult.ok.injEq] at h
          obtain ⟨rfl, rfl⟩ := h
          have hbits : 1 ≤ 8 * bytes := by omega
          have hH : (2 : Int) ^ 7 ≤ 2 ^ (8 * bytes - 1) :=
            pow_le_pow_right₀ (by omega) (by omega)
          have hus := consumeIntS_le hb hc
          have hpow : (2 : Nat) ≤ 2 ^ (8 * bytes - 1) := by
            calc (2 : Nat) = 2 ^ 1 := by norm_num
              _ ≤ 2 ^ (8 * bytes - 1) := Nat.pow_le_pow_right (by omega) (by omega)
          have hus' : (u : Int) ≤ (2 : Int) ^ (8 * bytes - 1) - 2 := by
            calc (u : Int) ≤ ((2 ^ (8 * bytes - 1) - 2 : Nat) : Int) := by
                  exact_mod_cast hus
              _ = (2 : Int) ^ (8 * bytes - 1) - 2 := by
                  rw [Nat.cast_sub hpow]
                  push_cast
                  ring
          set H : Int := 2 ^ (8 * bytes - 1) with hHdef
          -- the wrapped difference
          have hDbound : hi - lo ≤ 2 ^ (8 * bytes) - 1 := by
            have h2 : (2 : Int) ^ (8 * bytes) = 2 * H := by
              rw [hHdef]
              conv_lhs => rw [show 8 * bytes = (8 * bytes - 1) + 1 by omega]
              rw [pow_succ]
              ring
            omega
          have hr := wrapSigned_spec hbits (hi - lo) (by omega) hDbound
          have h2H : (2 : Int) ^ (8 * bytes) = 2 * H := by
            rw [hHdef]
            conv_lhs => rw [show 8 * bytes = (8 * bytes - 1) + 1 by omega]
            rw [pow_succ]
            ring
          -- the all-range sentinel value
          have hsent : wrapSigned (8 * bytes) (H - 1 - -H) = -1 := by
            have := wrapSigned_spec hbits (H - 1 - -H) (by omega) (by omega)
            rw [this, if_neg (by omega)]
            omega
          split
          · rename_i hcase
            rcases hcase with hcase | hcase
            · -- range = maxS: hi - lo = H - 1 (a wrapped difference is < H - 1 unless direct)
              rw [hr] at hcase
              split at hcase
              · omega
              · omega
            · -- range = -1: hi - lo = 2H - 1, forcing lo = -H, hi = H - 1
              rw [hsent] at hcase
              rw [hr] at hcase
              split at hcase
              · omega
              · omega
          · rename_i hcase
            rw [hsent] at hcase
            push_neg at hcase
            obtain ⟨hc1, hc2⟩ := hcase
            rw [hr] at hc1 hc2 ⊢
            unfold rustRemEuclid
            split at hc1
            · -- positive range D = hi - lo < H
              rename_i hdlt
              rw [if_pos hdlt]
              have hnz : ((hi - lo + 1).natAbs : Int) = hi - lo + 1 := by
                rw [Int.natAbs_of_nonneg (by omega)]
              rw [hnz]
              have hmn : 0 ≤ (u : Int) % (hi - lo + 1) := Int.emod_nonneg _ (by omega)
              have hmx : (u : Int) % (hi - lo + 1) < hi - lo + 1 :=
                Int.emod_lt_of_pos _ (by omega)
              omega
            · -- wrapped negative range D - 2H
              rename_i hdge
              rw [if_neg hdge]
              push_neg at hdge
              have hnz : ((hi - lo - 2 ^ (8 * bytes) + 1).natAbs : Int)
                  = 2 * H - (hi - lo) - 1 := by
                rw [Int.ofNat_natAbs_of_nonpos (by omega)]
                omega
              rw [hnz]
              have hpos : (0 : Int) < 2 * H - (hi - lo) - 1 := by omega
              have hmn : 0 ≤ (u : Int) % (2 * H - (hi - lo) - 1) := Int.emod_nonneg _ (by omega)
              have hmx : (u : Int) % (2 * H - (hi - lo) - 1) < 2 * H - (hi - lo) - 1 :=
                Int.emod_lt_of_pos _ hpos
              omega
      | insufficient => rw [hc] at h; exact absurd h (by simp)
      | panicked => rw [hc] at h; exact absurd h (by simp)

/-! ### The grammar generator

Embedding of `Grammar`, `Grammar::optimize` and `Grammar::generate` from
`src/libs/mutation_engine/src/custom_mutators/grammar_mutator/src/lib.rs`.
`TokenIdentifier(usize)` becomes a plain `Nat`. -/

inductive Token where
  | orderedExpansion (children : List Nat)
  | nonTerminal (options : List Nat)
  | terminal (bytes : List Nat)
  | nop
deriving DecidableEq

/-- Embedding of the `Grammar` struct; the `BTreeMap` name table becomes an
association list (none of the verified operations consult it). -/
structure Grammar where
  start : Option Nat
  tokens : List Token
  tokenMap : List (String × Nat)
deriving DecidableEq

/-- Result of a `generate` call: normal return (updated PRNG and output
buffer), a panic (out-of-bounds token index or `pick` on an empty option
list), or exhaustion of the recursion fuel supplied to the embedding. -/
inductive GRes where
  | ok (rng : Rng) (out : List Nat)
  | panicked
  | fuelOut

mutual
/-- Embedding of `Grammar::generate(depth, id, prng, out)`.  The source
recurses with `depth + 1` and returns immediately once `depth > 128`; this
embedding carries an explicit structural `fuel` so the recursion is
manifestly total, and `generate_noFuelOut` below shows fuel
`129 - depth + 1` is never exhausted, which is the termination argument for
the source recursion. -/
def generateAux (g : Grammar) (fuel depth id : Nat) (rng : Rng) (out : List Nat) : GRes :=
  if depth > 128 then .ok rng out
  else
    match fuel with
    | 0 => .fuelOut
    | f + 1 =>
      match g.tokens.get? id with
      | none => .panicked
      | some (.terminal bs) => .ok rng (out ++ bs)
      | some (.nonTerminal options) =>
          match pickL rng options with
          | none => .panicked
          | some (opt, rng') => generateAux g f (depth + 1) opt rng' out
      | some (.orderedExpansion exps) => generateListAux g f depth exps rng out
      | some .nop => .ok rng out
termination_by (fuel, 0)

/-- The `for expansion in expansions` loop of `Grammar::generate`: each child
is generated at `depth + 1` on the accumulated output. -/
def generateListAux (g : Grammar) (fuel depth : Nat) (ids : List Nat)
    (rng : Rng) (out : List Nat) : GRes :=
  match ids with
  | [] => .ok rng out
  | id :: rest =>
      match generateAux g fuel (depth + 1) id rng out with
      | .ok rng' out' => generateListAux g fuel depth rest rng' out'
      | .panicked => .panicked
      | .fuelOut => .fuelOut
termination_by (fuel, ids.length + 1)
end

/-- Embedding of a call `grammar.generate(depth, id, prng, out)`, instantiated
with fuel `129 - depth + 1`, which `generate_noFuelOut` proves sufficient
for every input. -/
def Grammar.generate (g : Grammar) (depth id : Nat) (rng : Rng) (out : List Nat) : GRes :=
  generateAux g (129 - depth + 1) depth id rng out

theorem generate_noFuelOut (g : Grammar) : ∀ fuel : Nat,
    (∀ depth id rng out, 129 ≤ fuel + depth →
      generateAux g fuel depth id rng out ≠ .fuelOut)
    ∧ (∀ depth ids rng out, 128 ≤ fuel + depth →
      generateListAux g fuel depth ids rng out ≠ .fuelOut) := by
  intro fuel
  induction fuel with
  | zero =>
      have haux : ∀ depth id rng out, 129 ≤ 0 + depth →
          generateAux g 0 depth id rng (out : List Nat) ≠ .fuelOut := by
        intro depth id rng out hd
        unfold generateAux
        rw [if_pos (by omega)]
        simp
      refine ⟨haux, ?_⟩
      intro depth ids rng out hd
      induction ids generalizing rng out with
      | nil => simp [generateListAux]
      | cons id rest ihl =>
          unfold generateListAux
          cases hg : generateAux g 0 (depth + 1) id rng out with
          | ok rng' out' => exact ihl rng' out'
          | panicked => simp
          | fuelOut => exact absurd hg (haux _ _ _ _ (by omega))
  | succ f ih =>
      have haux : ∀ depth id rng out, 129 ≤ (f + 1) + depth →
          generateAux g (f + 1) depth id rng (out : List Nat) ≠ .fuelOut := by
        intro depth id rng out hd
        unfold generateAux
        split
        · simp
        · cases hget : g.tokens.get? id with
          | none => simp
          | some tok =>
              cases tok with
              | terminal bs => simp
              | nop => simp
              | nonTerminal options =>
                  simp only
                  cases hp : pickL rng options with
                  | none => simp
                  | some p =>
                      obtain ⟨opt, rng'⟩ := p
                      exact ih.1 (depth + 1) opt rng' out (by omega)
              | orderedExpansion exps =>
                  simp only
                  exact ih.2 depth exps rng out (by omega)
      refine ⟨haux, ?_⟩
      intro depth ids rng out hd
      induction ids generalizing rng out with
      | nil => simp [generateListAux]
      | cons id rest ihl =>
          unfold generateListAux
          cases hg : generateAux g (f + 1) (depth + 1) id rng out with
          | ok rng' out' => exact ihl rng' out'
          | panicked => simp
          | fuelOut => exact absurd hg (haux _ _ _ _ (by omega))

/-- State threaded through `Grammar::optimize`: the token table, the
`nop_tokens` set (a `BTreeSet`, modelled as a duplicate-free insertion list —
only membership is consulted) and the `changed` flag. -/
structure OptState where
  tokens : List Token
  nops : List Nat
  changed : Bool
deriving DecidableEq

/-- Insertion into the `nop_tokens` set. -/
def nopInsert (s : List Nat) (x : Nat) : List Nat := if x ∈ s then s else x :: s

/-- Final phase of one `Grammar::optimize` loop body: the
`if let Token::OrderedExpansion(..) = &mut self.tokens[idx]` retain step,
which drops children recorded in the nop set from the now-current token,
setting the `changed` flag for each removal. -/
def optStepTail (idx : Nat) (st2 : OptState) : Option OptState :=
  match st2.tokens.get? idx with
  | some (.orderedExpansion exps2) =>
      some { st2 with
               tokens := st2.tokens.set idx
                 (.orderedExpansion (exps2.filter (fun x => !(st2.nops.contains x)))),
               changed := st2.changed || exps2.any (fun x => st2.nops.contains x) }
  | some _ => some st2
  | none => none

/-- One body execution of the `for idx in 0..self.tokens.len()` loop of
`Grammar::optimize`: match on a clone of `tokens[idx]`; a `NonTerminal` with
a single option is replaced by a clone of that option's token; an
`OrderedExpansion` is turned into `Nop` when empty (recording the index),
replaced by a clone of its only child when a singleton, and then handed to
the retain step `optStepTail`. -/
def optStep (st : OptState) (idx : Nat) : Option OptState :=
  match st.tokens.get? idx with
  | none => none
  | some (.nonTerminal options) =>
      if options.length = 1 then
        match st.tokens.get? (options.getD 0 0) with
        | none => none
        | some tgt =>
            some { st with tokens := st.tokens.set idx tgt, changed := true }
      else some st
  | some (.orderedExpansion exps) =>
      let st1 :=
        if exps.isEmpty then
          { st with tokens := st.tokens.set idx Token.nop,
                    changed := true, nops := nopInsert st.nops idx }
        else st
      if exps.length = 1 then
        match st1.tokens.get? (exps.getD 0 0) with
        | none => none
        | some tgt =>
            optStepTail idx { st1 with tokens := st1.tokens.set idx tgt, changed := true }
      else optStepTail idx st1
  | some _ => some st

/-- One full sweep of the `for` loop over all current token indices. -/
def optSweep (st : OptState) : Option OptState :=
  (List.range st.tokens.length).foldlM optStep st

/-- The `while changed` fixed-point loop of `Grammar::optimize`: each round
clears the flag, sweeps, and stops when the sweep reports no change.  `fuel`
bounds the number of sweeps the embedding will run; the source loop simply
continues (and on grammars where it never reaches a fixed point it does not
terminate, which the embedding reports as `none`). -/
def optLoop : Nat → OptState → Option (List Token)
  | 0, _ => none
  | fuel + 1, st => do
      let st' ← optSweep { st with changed := false }
      if st'.changed then optLoop fuel st' else some st'.tokens

/-- Embedding of `Grammar::optimize`, with the sweep bound made explicit. -/
def Grammar.optimize (g : Grammar) (fuel : Nat) : Option Grammar :=
  (optLoop fuel { tokens := g.tokens, nops := [], changed := true }).map
    (fun t => { g with tokens := t })

theorem list_set_self {α : Type} {l : List α} {i : Nat} {v : α}
    (h : l.get? i = some v) : l.set i v = l := by
  induction l generalizing i with
  | nil => simp at h
  | cons x xs ih =>
      cases i with
      | zero =>
          simp only [List.get?] at h
          cases h
          simp
      | succ n =>
          simp only [List.get?] at h
          simp [ih h]

theorem optStepTail_unchanged {idx : Nat} {st2 st' : OptState}
    (h : optStepTail idx st2 = some st') (hch : st'.changed = false) : st' = st2 := by
  unfold optStepTail at h
  split at h
  · rename_i exps2 hget2
    cases h
    simp only [Bool.or_eq_false_iff] at hch
    obtain ⟨hc0, hany⟩ := hch
    have hnone : exps2.filter (fun x => !(st2.nops.contains x)) = exps2 := by
      rw [List.filter_eq_self]
      intro a ha
      have hmem := hany
      rw [List.any_eq_false] at hmem
      simpa using hmem a ha
    rw [hnone, list_set_self hget2, hany, Bool.or_false]
  · cases h; rfl
  · exact absurd h (by simp)

theorem optStep_unchanged {st : OptState} {idx : Nat} {st' : OptState}
    (h : optStep st idx = some st') (hch : st'.changed = false) : st' = st := by
  unfold optStep at h
  split at h
  · exact absurd h (by simp)
  · rename_i options hget
    split at h
    · split at h
      · exact absurd h (by simp)
      · cases h; simp at hch
    · cases h; rfl
  · rename_i exps hget
    by_cases hemp : exps.isEmpty
    · -- the empty-expansion rewrite sets the flag, which no later phase
      -- clears, contradicting `hch`
      rw [if_pos hemp] at h
      rw [if_neg (by rw [List.isEmpty_iff] at hemp; simp [hemp])] at h
      have hst := optStepTail_unchanged h hch
      rw [hst] at hch
      simp at hch
    · rw [if_neg hemp] at h
      simp only [] at h
      split at h
      · split at h
        · exact absurd h (by simp)
        · have hst := optStepTail_unchanged h hch
          rw [hst] at hch
          simp at hch
      · exact optStepTail_unchanged h hch
  · cases h; rfl

theorem optStepTail_changed {idx : Nat} {st2 st' : OptState}
    (h : optStepTail idx st2 = some st') (hc : st2.changed = true) :
    st'.changed = true := by
  unfold optStepTail at h
  split at h
  · cases h; simp [hc]
  · cases h; exact hc
  · exact absurd h (by simp)

theorem optStep_dropNops {T : List Token} {N : List Nat} {idx : Nat}
    (h : optStep { tokens := T, nops := N, changed := false } idx
        = some { tokens := T, nops := N, changed := false }) :
    optStep { tokens := T, nops := [], changed := false } idx
      = some { tokens := T, nops := [], changed := false } := by
  cases hget : T.get? idx with
  | none =>
      simp only [optStep, hget] at h
      exact absurd h (by simp)
  | some tok =>
      cases tok with
      | terminal bs => simp only [optStep, hget]
      | nop => simp only [optStep, hget]
      | nonTerminal options =>
          simp only [optStep, hget] at h ⊢
          split at h
          · split at h
            · exact absurd h (by simp)
            · simp only [Option.some.injEq, OptState.mk.injEq] at h
              exact absurd h.2.2 (by simp)
          · rename_i hlen
            rw [if_neg hlen]
      | orderedExpansion exps =>
          simp only [optStep, hget] at h ⊢
          by_cases hemp : exps.isEmpty
          · exfalso
            rw [if_pos hemp] at h
            rw [if_neg (by rw [List.isEmpty_iff] at hemp; simp [hemp])] at h
            have := optStepTail_changed h rfl
            simp at this
          · rw [if_neg hemp] at h ⊢
            simp only [] at h ⊢
            by_cases hone : exps.length = 1
            · exfalso
              rw [if_pos hone] at h
              split at h
              · exact absurd h (by simp)
              · have := optStepTail_changed h rfl
                simp at this
            · rw [if_neg hone] at h ⊢
              unfold optStepTail at h ⊢
              simp only [hget] at h ⊢
              have hfil : List.filter (fun x => !(List.contains ([] : List Nat) x)) exps
                  = exps := by
                rw [List.filter_eq_self]
                intro a _
                rfl
              have hany : (List.any exps fun x => List.contains ([] : List Nat) x)
                  = false := by
                rw [List.any_eq_false]
                intro x _
                simp [List.contains]
              rw [hfil, hany, list_set_self hget, Bool.or_false]

theorem foldlM_optStep_unchanged :
    ∀ (idxs : List Nat) (st st' : OptState),
      idxs.foldlM optStep st = some st' → st'.changed = false →
      st' = st ∧ st.changed = false := by
  intro idxs
  induction idxs with
  | nil =>
      intro st st' h hch
      cases h
      exact ⟨rfl, hch⟩
  | cons i rest ih =>
      intro st st' h hch
      simp only [List.foldlM, Option.bind_eq_bind, Option.bind_eq_some] at h
      obtain ⟨st1, h1, h2⟩ := h
      obtain ⟨rfl, hch1⟩ := ih st1 st' h2 hch
      have := optStep_unchanged h1 hch1
      subst this
      exact ⟨rfl, hch1⟩

theorem foldlM_optStep_dropNops :
    ∀ (idxs : List Nat) (T : List Token) (N : List Nat),
      idxs.foldlM optStep { tokens := T, nops := N, changed := false }
        = some { tokens := T, nops := N, changed := false } →
      idxs.foldlM optStep { tokens := T, nops := [], changed := false }
        = some { tokens := T, nops := [], changed := false } := by
  intro idxs
  induction idxs with
  | nil => intro T N _; rfl
  | cons i rest ih =>
      intro T N h
      simp only [List.foldlM, Option.bind_eq_bind, Option.bind_eq_some] at h ⊢
      obtain ⟨st1, h1, h2⟩ := h
      have hmid := foldlM_optStep_unchanged rest st1 _ h2 rfl
      rw [← hmid.1] at h1
      have h1' := optStep_dropNops h1
      exact ⟨_, h1', ih T N (hmid.1 ▸ h2)⟩

theorem optLoop_exit :
    ∀ (fuel : Nat) (st : OptState) (T : List Token), optLoop fuel st = some T →
      ∃ N, optSweep { tokens := T, nops := N, changed := false }
          = some { tokens := T, nops := N, changed := false } := by
  intro fuel
  induction fuel with
  | zero => intro st T h; simp [optLoop] at h
  | succ f ih =>
      intro st T h
      unfold optLoop at h
      simp only [Option.bind_eq_bind, Option.bind_eq_some] at h
      obtain ⟨st', h1, h2⟩ := h
      by_cases hc : st'.changed
      · rw [if_pos hc] at h2
        exact ih st' T h2
      · rw [if_neg hc] at h2
        simp only [Option.some.injEq] at h2
        subst h2
        have hun := foldlM_optStep_unchanged _ _ _ h1 (by simpa using hc)
        refine ⟨st.nops, ?_⟩
        have hst' : st' = { tokens := st.tokens, nops := st.nops, changed := false } := hun.1
        rw [hst'] at h1 ⊢
        exact h1

/-! ### Magic constants

Embedding of `src/libs/magic/src/lib.rs`, bit for bit (duplicates included). -/

def MAGIC_8 : List Nat := [
  0x7f, 0xff, 0x0, 0x1, 0x2, 0x3, 0x4, 0x5, 0x6, 0x7, 0x8, 0x9, 0xa, 0xb, 0xc, 0xd, 0xe, 0xf,
  0x10, 0x20, 0x30, 0x40, 0x7e, 0x80, 0x81, 0xc0, 0xfe]

def MAGIC_16 : List Nat := [
  0x7fff, 0xffff, 0x0, 0x0101, 0x8080, 0x1, 0x2, 0x3, 0x4, 0x5, 0x6, 0x7, 0x8, 0x9, 0xa, 0xb,
  0xc, 0xd, 0xe, 0xf, 0x10, 0x20, 0x40, 0x7e, 0x7f, 0x80, 0x81, 0xc0, 0xfe, 0xff, 0x7eff, 0x8000,
  0x8001, 0xfffe, 0x100, 0x200, 0x300, 0x400, 0x500, 0x600, 0x700, 0x800, 0x900, 0xa00, 0xb00,
  0xc00, 0xd00, 0xe00, 0xf00, 0x1000, 0x2000, 0x4000, 0x7e00, 0x7f00, 0x8000, 0x8100, 0xc000,
  0xfe00, 0xff00, 0xff7e, 0xff7f, 0x0180, 0xfeff]

def MAGIC_32 : List Nat := [
  0x0, 0x1, 0x2, 0x3, 0x4, 0x5, 0x6, 0x7, 0x8, 0x9, 0xa, 0xb, 0xc, 0xd, 0xe, 0xf,
  0x10, 0x20, 0x40, 0x7e, 0x7f, 0x80, 0x81, 0xc0, 0xfe, 0xff, 0x7ffff,
  0x01000000, 0x02000000, 0x03000000, 0x04000000, 0x05000000, 0x06000000, 0x07000000,
  0x08000000, 0x09000000, 0x0a000000, 0x0b000000, 0x0c000000, 0x0d000000, 0x0e000000,
  0x0f000000, 0x80000000, 0x40000000, 0xffffffff, 0x01010101, 0x80808080, 0x7effffff,
  0x80000021, 0xfffffffe, 0x10000000, 0x20000000, 0x40000000, 0x7e000000, 0x7f000000,
  0x81000000, 0xc0000000, 0xfe000000, 0xff000000, 0xffffff7e, 0xfffff7f, 0x01000080,
  0xfeffffff]

def MAGIC_64 : List Nat := [
  0xffffffffffffffff, 0x4000000000000000, 0x8000000000000000, 0x7fffffffffffffff,
  0x0, 0x0101010101010101, 0x8080808080808080,
  0x1, 0x2, 0x3, 0x4, 0x5, 0x6, 0x7, 0x8, 0x9, 0xa, 0xb, 0xc, 0xd, 0xe, 0xf,
  0x10, 0x20, 0x40, 0x7e, 0x7f, 0x80, 0x81, 0xc0, 0xfe, 0xff, 0x7f,
  0x7effffffffffffff, 0x8000000000000001, 0xfffffffffffffffe,
  0x0100000000000000, 0x0200000000000000, 0x0300000000000000, 0x0400000000000000,
  0x0500000000000000, 0x0600000000000000, 0x0700000000000000, 0x0900000000000000,
  0x0a00000000000000, 0x0b00000000000000, 0x0c00000000000000, 0x0d00000000000000,
  0x0e00000000000000, 0x0f00000000000000, 0x1000000000000000, 0x2000000000000000,
  0x4000000000000000, 0x7e00000000000000, 0x7f00000000000000, 0x8100000000000000,
  0xc000000000000000, 0xfe00000000000000, 0xff00000000000000, 0x0100000000000080,
  0xfeffffffffffffff]

/-! ### The mutation engine

Embedding of `src/libs/mutation_engine/src/lib.rs`.  Checked-subtraction
convention: `usize` subtractions that can underflow abort the run (`none`);
in release builds the wrapped value feeds an index or slice bound that then
panics, so runs that return normally coincide.  `u8` arithmetic written with
plain operators in the source is modelled with the release-profile wrapping
semantics (`% 256`). -/

/-- The `StandardMutators` enum. -/
inductive STag where
  | shuffleBytes | eraseBytes | insertBytes | swapNeighbors | swapEndianness
  | changeBit | changeByte | negateByte | arithmeticWidth | copyPart
  | changeASCIIInteger | changeBinaryInteger | crossOver | splice | truncate
  | append | addFromMagic | addWordFromDict | addWordFromTORC | ni | grammarGenerator
deriving DecidableEq

/-- The `CustomMutators` enum; the grammar template payload is consumed when
the grammar is compiled and is not needed afterwards. -/
inductive CTag where
  | ni | grammarGenerator
deriving DecidableEq

/-- The `Mutators` enum. -/
inductive MTag where
  | standard (t : STag)
  | custom (t : CTag)
deriving DecidableEq

/-- Outcome tag of one mutator call: `Ok(())` or a non-fatal `Err(..)`. -/
inductive MOut where
  | ok
  | err
deriving DecidableEq

/-- The `MutationEngine` struct.  The boxed grammar closure
(`grammar_generator: GrammarCaller`) is carried as the compiled grammar it
closes over; `ni_mutate`, which lives in the separate `ni` crate, is carried
as an unconstrained oracle of the same shape (`(data, size, prng, corpus) ->
Result<Vec<u8>>` plus the advanced PRNG), so every theorem quantifies over
all of its possible behaviours; `crossFuel` bounds the iteration count of the
`cross_over` while-loop, which the source does not bound. -/
structure Eng where
  mutators : List MTag
  grammarStart : Nat
  maxMutationFactor : Nat
  prng : Rng
  printable : Bool
  userTokenDict : List (List Nat)
  mutationPasses : Nat
  torcTokenDict : List (List Nat)
  testCase : TestCase
  corpus : List (List Nat)
  grammar : Grammar
  niMutate : List Nat → Nat → Rng → List (List Nat) → Option (List Nat) × Rng
  crossFuel : Nat

/-- Checked `usize` division (`a / b` panics when `b == 0`). -/
def rustDiv (a b : Nat) : Option Nat := if b = 0 then none else some (a / b)

/-- Embedding of `get_random_index(data, prng, exclude_off)`: asserts the
data is non-empty, then draws `rand_exp(0, data.len() - exclude_off)`. -/
def getRandomIndex (data : List Nat) (r : Rng) (excludeOff : Option Nat) :
    Option (Nat × Rng) :=
  if data.isEmpty then none
  else if data.length < excludeOff.getD 0 then none
  else randExp r 0 (data.length - excludeOff.getD 0)

theorem getRandomIndex_bounds {data : List Nat} {r : Rng} {eo : Option Nat}
    {i : Nat} {r' : Rng} (h : getRandomIndex data r eo = some (i, r')) :
    data.length ≠ 0 ∧ eo.getD 0 ≤ data.length ∧
      (0 < data.length - eo.getD 0 → i < data.length - eo.getD 0) ∧
      (data.length - eo.getD 0 = 0 → i = 0) := by
  unfold getRandomIndex at h
  split at h
  · exact absurd h (by simp)
  · split at h
    · exact absurd h (by simp)
    · rename_i hne hle
      have hb := randExp_bounds h
      rw [List.isEmpty_iff] at hne
      refine ⟨fun hc => hne (List.length_eq_zero.mp hc), by omega, by omega, by omega⟩

/-- Embedding of `MutationEngine::get_random_corpus_entry`: a uniformly drawn
corpus entry, or 128 fresh random bytes when the index misses (empty corpus). -/
def getRandomCorpusEntry (corpus : List (List Nat)) (r : Rng) :
    Option (List Nat × Rng) := do
  let (i, r') ← randRange r 0 corpus.length
  match corpus.get? i with
  | some tc => some (tc, r')
  | none => some (randByteVec r' 128)

/-- Embedding of `TestCase::new` applied through
`MutationEngine::set_test_case`. -/
def setTestCase (e : Eng) (d : List Nat) : Eng :=
  { e with testCase := TestCase.new d }

/-- Embedding of `MutationEngine::set_new_test_case`: asserts the corpus is
non-empty, clears the buffer and the cursor, copies a uniformly chosen entry
in and records its length as the size. -/
def setNewTestCase (e : Eng) : Option Eng :=
  if e.corpus.isEmpty then none
  else do
    let (idx, r1) ← randRange e.prng 0 e.corpus.length
    match e.corpus.get? idx with
    | none => none
    | some chosen =>
        some { e with
                 prng := r1,
                 testCase := { e.testCase with
                                 data := chosen,
                                 dataPtr := 0,
                                 size := chosen.length } }

/-- Helper replacing the test-case data and PRNG of an engine. -/
def withData (e : Eng) (d : List Nat) (r : Rng) : Eng :=
  { e with prng := r, testCase := { e.testCase with data := d } }

/-- Checked sequence of index swaps (each `ptr::swap` / `slice::swap` of the
source panics on an out-of-bounds index). -/
def checkedSwaps (d : List Nat) (ps : List (Nat × Nat)) : Option (List Nat) :=
  if ps.all (fun p => p.1 < d.length && p.2 < d.length) then
    some (ps.foldl (fun acc p => listSwap acc p.1 p.2) d)
  else none

theorem length_foldl_listSwap (ps : List (Nat × Nat)) :
    ∀ d : List Nat, (ps.foldl (fun acc p => listSwap acc p.1 p.2) d).length = d.length := by
  induction ps with
  | nil => intro d; rfl
  | cons p rest ih =>
      intro d
      simp only [List.foldl_cons]
      rw [ih, length_listSwap]

theorem length_checkedSwaps {d : List Nat} {ps : List (Nat × Nat)} {d' : List Nat}
    (h : checkedSwaps d ps = some d') : d'.length = d.length := by
  unfold checkedSwaps at h
  split at h
  · cases h
    exact length_foldl_listSwap ps d
  · exact absurd h (by simp)

/-- Embedding of `MutationEngine::shuffle_bytes`. -/
def shuffleBytesM (e : Eng) : Option (MOut × Eng) :=
  if e.testCase.size < 2 then some (.err, e)
  else do
    let (sa, r1) ← randRange e.prng 1 (min e.testCase.size 8)
    let shuffleAmount := sa + 1
    let (shuffleStart, r2) ← randRange r1 0 (e.testCase.size - shuffleAmount)
    let seg ← sliceGet e.testCase.data shuffleStart (shuffleStart + shuffleAmount)
    let (seg', r3) ← shuffle r2 seg
    let d' ← writeSlice e.testCase.data shuffleStart seg'
    some (.ok, withData e d' r3)

/-- Inner deletion loop of `MutationEngine::erase_bytes`: each round draws an
index, removes the byte (`Vec::remove` panics out of bounds) and decrements
the size field (`usize` underflow aborts). -/
def eraseLoop : Nat → List Nat → Nat → Rng → Option (List Nat × Nat × Rng)
  | 0, data, size, r => some (data, size, r)
  | n + 1, data, size, r => do
      let (idx, r1) ← getRandomIndex data r none
      if idx < data.length then
        if size = 0 then none
        else eraseLoop n (data.eraseIdx idx) (size - 1) r1
      else none

/-- Embedding of `MutationEngine::erase_bytes`. -/
def eraseBytesM (e : Eng) : Option (MOut × Eng) :=
  if e.testCase.size = 0 then some (.err, e)
  else
    let (b, r1) := rbool e.prng
    if b then do
      let (idx, r2) ← getRandomIndex e.testCase.data r1 none
      if idx < e.testCase.data.length then
        some (.ok, { e with
          prng := r2,
          testCase := { e.testCase with
            data := e.testCase.data.eraseIdx idx,
            size := e.testCase.size - 1 } })
      else none
    else do
      let maxFactor ←
        if e.testCase.size < 20 then some e.testCase.size
        else do
          let q ← rustDiv e.testCase.size e.maxMutationFactor
          some (min 100 q)
      let (d', s', r2) ← eraseLoop maxFactor e.testCase.data e.testCase.size r1
      some (.ok, { e with
        prng := r2,
        testCase := { e.testCase with data := d', size := s' } })

/-- Embedding of `MutationEngine::insert_bytes` (`Vec::insert` and
`Vec::splice` panic past the end of the buffer). -/
def insertBytesM (e : Eng) : Option (MOut × Eng) := do
  let (toInsert, r1) := ensurePrintable e.printable e.prng
  let (idx, r2) ← getRandomIndex e.testCase.data r1 none
  let (b, r3) := rbool r2
  if b then do
    let (idx2, r4) ← getRandomIndex e.testCase.data r3 none
    if idx2 ≤ e.testCase.data.length then
      some (.ok, { e with
        prng := r4,
        testCase := { e.testCase with
          data := List.insertIdx idx2 toInsert e.testCase.data,
          size := e.testCase.size + 1 } })
    else none
  else do
    let maxFactor ←
      if e.testCase.size < 20 then some e.testCase.size
      else do
        let q ← rustDiv e.testCase.size e.maxMutationFactor
        some (min 100 q)
    if idx ≤ e.testCase.data.length then
      some (.ok, { e with
        prng := r3,
        testCase := { e.testCase with
          data := e.testCase.data.take idx ++ List.replicate maxFactor toInsert
                    ++ e.testCase.data.drop idx,
          size := e.testCase.size + maxFactor } })
    else none

/-- Embedding of `swap_neighbors_width::<T>` for a `T` of `bytes` bytes. -/
def swapNeighborsWidth (bytes : Nat) (data : List Nat) (dataSize : Nat) (r : Rng) :
    Option (MOut × List Nat × Rng) :=
  if dataSize ≤ bytes then some (.err, data, r)
  else do
    let (idx, r1) ← getRandomIndex data r (some (dataSize - 1 - bytes))
    if idx + 2 * bytes < dataSize then do
      let d' ← checkedSwaps data
        ((List.range bytes).map (fun i => (idx + i, idx + bytes + i)))
      some (.ok, d', r1)
    else if bytes ≤ idx ∧ idx + bytes < dataSize then do
      let d' ← checkedSwaps data
        ((List.range bytes).map (fun i => (idx - bytes + i, idx + i)))
      some (.ok, d', r1)
    else
      let maxBytes := min (min (dataSize - idx) idx) bytes
      if maxBytes < 2 then do
        let v ← getAt data maxBytes
        let d' ← setAt data maxBytes (not8 v)
        some (.ok, d', r1)
      else
        let halfBytes := maxBytes / 2
        if halfBytes ≤ idx then do
          let d' ← checkedSwaps data
            ((List.range halfBytes).map (fun i => (idx - i, idx + halfBytes - i)))
          some (.ok, d', r1)
        else do
          let d' ← checkedSwaps data
            ((List.range halfBytes).map (fun i => (idx + i, dataSize - i - 1)))
          some (.ok, d', r1)

/-- Embedding of `MutationEngine::swap_neighbors` (dispatch over the width
picked by `rand_range(0, 4)`, routed through `fun_caller`). -/
def swapNeighborsM (e : Eng) : Option (MOut × Eng) := do
  let (w, r1) ← randRange e.prng 0 4
  let bytes := if w = 0 then 1 else if w = 1 then 2 else if w = 2 then 4 else 8
  let (o, d', r2) ← swapNeighborsWidth bytes e.testCase.data e.testCase.size r1
  some (o, withData e d' r2)

/-- Embedding of `MutationEngine::swap_endianness`: reverse a
`min(width, size - idx)`-byte block in place. -/
def swapEndiannessM (e : Eng) : Option (MOut × Eng) := do
  let (w0, r1) ← pickL e.prng [2, 4, 8]
  if e.testCase.size < w0 then some (.err, { e with prng := r1 })
  else do
    let (idx, r2) ← getRandomIndex e.testCase.data r1 (some 1)
    let width := min w0 (e.testCase.size - idx)
    let _ ← sliceGet e.testCase.data idx (idx + width)
    let d' ← checkedSwaps e.testCase.data
      ((List.range (width / 2)).map (fun i => (idx + i, idx + width - i - 1)))
    some (.ok, withData e d' r2)

/-- Embedding of `MutationEngine::change_bit`. -/
def changeBitM (e : Eng) : Option (MOut × Eng) := do
  let (idx, r1) ← getRandomIndex e.testCase.data e.prng none
  let (bit, r2) ← randRange r1 0 8
  let v ← getAt e.testCase.data idx
  let d' ← setAt e.testCase.data idx (Nat.xor v (1 <<< bit))
  some (.ok, withData e d' r2)

/-- Embedding of `MutationEngine::change_byte`. -/
def changeByteM (e : Eng) : Option (MOut × Eng) := do
  let (idx, r1) ← getRandomIndex e.testCase.data e.prng none
  let byte ← getAt e.testCase.data idx
  let (rv, r2) := randByte r1
  let (b, r3) := rbool r2
  let newByte :=
    if b then (if rv = byte then rv + 1 else rv)
    else if rv = 0 then Nat.xor byte (rv + 1)
    else Nat.xor byte rv
  let d' ← setAt e.testCase.data idx newByte
  some (.ok, withData e d' r3)

/-- Embedding of `MutationEngine::negate_byte`. -/
def negateByteM (e : Eng) : Option (MOut × Eng) := do
  let (idx, r1) ← getRandomIndex e.testCase.data e.prng none
  let byte ← getAt e.testCase.data idx
  let d' ← setAt e.testCase.data idx (not8 byte)
  some (.ok, withData e d' r1)

/-- Embedding of `arithmetic::<T>` for a `T` of `bytes` bytes: read a
big-endian value, apply one of the six wrapping operations, write it back. -/
def arithmeticW (bytes : Nat) (data : List Nat) (dataSize : Nat) (r : Rng) :
    Option (MOut × List Nat × Rng) :=
  if dataSize < bytes then some (.err, data, r)
  else do
    let (idx, r1) ← getRandomIndex data r (some bytes)
    let vals ← sliceGet data idx (idx + bytes)
    let val := decodeBE vals
    let (op, r2) ← randRange r1 0 6
    let w := 2 ^ (8 * bytes)
    let val' :=
      if op = 0 then (val + (w - 1)) % w
      else if op = 1 then (val + 1) % w
      else if op = 2 then (val * 2) % w
      else if op = 3 then (w - val % w) % w
      else if op = 4 then (val <<< 2) % w
      else (val % w) >>> 2
    let d' ← writeSlice data idx ((List.range bytes).map
      (fun i => val' / 2 ^ (8 * (bytes - i - 1)) % 256))
    some (.ok, d', r2)

/-- Embedding of `MutationEngine::arithmetic_width` (dispatch over the width
picked by `rand_range(0, 4)`, routed through `fun_caller`). -/
def arithmeticM (e : Eng) : Option (MOut × Eng) := do
  let (w, r1) ← randRange e.prng 0 4
  let bytes := if w = 0 then 1 else if w = 1 then 2 else if w = 2 then 4 else 8
  let (o, d', r2) ← arithmeticW bytes e.testCase.data e.testCase.size r1
  some (o, withData e d' r2)

/-- Embedding of `copy_part_of(from, to, prng)`: overwrite a random in-bounds
range of the test case with bytes of `from` (XOR when a single byte, with a
zero byte promoted to one), adjusting indices when source and destination
coincide. -/
def copyPartOf (src : List Nat) (tcs : TestCase) (r : Rng) :
    Option (TestCase × Rng) := do
  let (toIdx, r1) ← randRange r 0 tcs.size
  if tcs.size < toIdx then none
  else do
    let (cs0, r2) ← randRange r1 1 (tcs.size - toIdx + 1)
    let copySize := min cs0 src.length
    if src.length < copySize then none
    else do
      let (fromIdx, r3) ← randRange r2 0 (src.length - copySize + 1)
      if copySize = 1 then do
        let b ← getAt src fromIdx
        let old ← getAt tcs.data toIdx
        let d' ← setAt tcs.data toIdx (Nat.xor old (if b = 0 then b + 1 else b))
        some ({ tcs with data := d' }, r3)
      else
        let fi2 :=
          if fromIdx = toIdx then
            if 0 < fromIdx then fromIdx - 1
            else if 0 < toIdx then fromIdx
            else fromIdx + 1
          else fromIdx
        let ti2 :=
          if fromIdx = toIdx then
            if 0 < fromIdx then toIdx
            else if 0 < toIdx then toIdx - 1
            else toIdx
          else toIdx
        let cs2 :=
          if fromIdx = toIdx ∧ fromIdx = 0 ∧ toIdx = 0 ∧
              ¬ fromIdx + 1 + copySize < src.length then copySize - 1
          else copySize
        let cslice ← sliceGet src fi2 (fi2 + cs2)
        let d' ← writeSlice tcs.data ti2 cslice
        some ({ tcs with data := d' }, r3)

/-- Embedding of `insert_part_of(from, to, prng, max_size)`: build a fresh
buffer of `to.size + copy_size` bytes from the prefix of the test case, the
copied chunk and the suffix (each `copy_from_slice` requires exactly matching
lengths). -/
def insertPartOf (src : List Nat) (tcs : TestCase) (r : Rng) (maxSize : Nat) :
    Option (TestCase × Rng) := do
  if maxSize < tcs.size then none
  else if min (maxSize - tcs.size) src.length = 0 then none
  else do
      let (copySize, r1) ← randRange r 1 (min (maxSize - tcs.size) src.length + 1)
      if src.length < copySize then none
      else do
        let (fromIdx, r2) ← randRange r1 0 (src.length - copySize + 1)
        let tpick := if tcs.data.isEmpty then some (0, r2) else randRange r2 0 tcs.size
        let (toIdx, r3) ← tpick
        let newSize := tcs.size + copySize
        let base := List.replicate newSize 0
        let pre ← sliceGet tcs.data 0 toIdx
        let w1 ← writeSlice base 0 pre
        let mid ← sliceGet src fromIdx (fromIdx + copySize)
        let w2 ← writeSlice w1 toIdx mid
        let post ← sliceGet tcs.data toIdx tcs.data.length
        if toIdx + copySize + post.length = w2.length then do
          let w3 ← writeSlice w2 (toIdx + copySize) post
          some ({ tcs with data := w3, size := newSize }, r3)
        else none

/-- Embedding of `MutationEngine::copy_part`. -/
def copyPartM (e : Eng) : Option (MOut × Eng) := do
  let (randTc, r1) ← getRandomCorpusEntry e.corpus e.prng
  if randTc.isEmpty then none
  else
    let (b, r2) := rbool r1
    if b then do
      let (tc', r3) ← copyPartOf randTc e.testCase r2
      some (.ok, { e with prng := r3, testCase := tc' })
    else do
      let (ms, r3) ← randRange r2 1 e.testCase.size
      let maxSize := e.testCase.size + ms
      let (tc', r4) ← insertPartOf randTc e.testCase r3 maxSize
      some (.ok, { e with prng := r4, testCase := tc' })

/-- ASCII digit test (`u8::is_ascii_digit`). -/
def isAsciiDigit (b : Nat) : Bool := 48 ≤ b && b ≤ 57

/-- Digit-window fold of `change_ascii_integer`:
`acc + (ch - b'0') * 10u8.wrapping_mul(i as u8)` over the window, with `u8`
wrapping semantics. -/
def windowFold (l : List Nat) : Nat :=
  (l.foldl
    (fun (p : Nat × Nat) ch => (((p.1 + (ch - 48) * (10 * (p.2 % 256) % 256)) % 256, p.2 + 1)))
    (0, 0)).1

/-- Embedding of `MutationEngine::change_ascii_integer`: the window search
slices the buffer from a random offset and `windows(len)` yields the single
full-length window, so a digit window is found exactly when the whole tail is
ASCII digits (`windows(0)` panics on an empty tail). -/
def changeAsciiIntegerM (e : Eng) : Option (MOut × Eng) := do
  let (skipPast, r1) ← randRange e.prng 0 e.testCase.size
  let tail ← sliceGet e.testCase.data skipPast e.testCase.data.length
  if tail.isEmpty then none
  else if tail.all isAsciiDigit ∧
      ¬ (skipPast = e.testCase.size ∧ skipPast + tail.length = e.testCase.size) then do
    let window ← sliceGet e.testCase.data skipPast (skipPast + tail.length)
    let val0 := windowFold window
    let (op, r2) ← randRange r1 0 5
    let (val1, r3) ←
      (if op = 0 then some ((val0 + 1) % 256, r2)
       else if op = 1 then some ((val0 + 255) % 256, r2)
       else if op = 2 then some (val0 / 2, r2)
       else if op = 3 then some (val0 * 2 % 256, r2)
       else do
         let (x, r') ← randRange r2 0 (val0 * val0)
         some (x % 256, r') : Option (Nat × Rng))
    let val2 := if val1 > 9 then 9 else val1
    let d' ← writeSlice e.testCase.data skipPast
      (List.replicate (skipPast + tail.length - skipPast) (val2 + 48))
    some (.ok, withData e d' r3)
  else do
    let v ← getAt e.testCase.data 0
    let d' ← setAt e.testCase.data 0 (not8 v)
    some (.ok, withData e d' r1)

/-- Byte length of a value (the `while v > 0 { v >>= 8; .. }` counter of
`add_from_magic`). -/
def byteLen (v : Nat) : Nat :=
  if v = 0 then 0 else byteLen (v / 256) + 1
decreasing_by exact Nat.div_lt_self (Nat.pos_of_ne_zero (by assumption)) (by norm_num)

/-- Byte swap of a value within `n` bytes (`uN::swap_bytes`). -/
def byteSwap (n v : Nat) : Nat :=
  (List.range n).foldl (fun acc i => acc + v / 2 ^ (8 * i) % 256 * 2 ^ (8 * (n - 1 - i))) 0

/-- Embedding of `MutationEngine::change_binary_integer`. -/
def changeBinaryIntegerM (e : Eng) : Option (MOut × Eng) := do
  let (binSize, r1) ← pickL e.prng [1, 2, 4, 8]
  if e.testCase.size < binSize then some (.err, { e with prng := r1 })
  else do
    let (off, r2) ← randRange r1 0 (e.testCase.size - binSize + 1)
    let (addRaw, r3) ← randRange r2 0 21
    let add := if 10 ≤ addRaw then addRaw - 10 else 0
    let w := 2 ^ (8 * binSize)
    let (val0, r4) ←
      (if off < 64 then do
        let (b, r') ← boolChance r3 4
        if b then some (e.testCase.size, r')
        else do
          let s ← sliceGet e.testCase.data off (off + binSize)
          some (decodeBE s, r')
      else do
        let s ← sliceGet e.testCase.data off (off + binSize)
        some (decodeBE s, r3) : Option (Nat × Rng))
    let b1 := (rbool r4).1
    let r5 := (rbool r4).2
    let val1 :=
      if b1 then (byteSwap binSize (val0 % w) + add) % w
      else (val0 + add) % 2 ^ 64
    let (val2, r6) ←
      (if add = 0 then
        let (v', r') :=
          if add = val1 then
            let (rb, rr) := randByte r5
            (rb, rr)
          else (val1, r5)
        some ((2 ^ 64 - v' % 2 ^ 64) % 2 ^ 64, r')
      else
        let (b2, r6') := rbool r5
        if b2 then
          let (v', r'') :=
            if add = val1 then
              let (rb, rr) := randByte r6'
              (rb, rr)
            else (val1, r6')
          some ((2 ^ 64 - v' % 2 ^ 64) % 2 ^ 64, r'')
        else some (val1, r6') : Option (Nat × Rng))
    let d' ← writeSlice e.testCase.data off ((List.range binSize).map
      (fun i => val2 % w / 2 ^ (8 * (binSize - 1 - i)) % 256))
    some (.ok, withData e d' r6)

/-- The `while` loop of `MutationEngine::cross_over`, with explicit fuel (the
source loop can spin without progress on a PRNG that keeps drawing a zero
extra size). -/
def crossLoop (data1 data2 : List Nat) (size1 size2 maxOut : Nat) :
    Nat → List Nat → Nat → Nat → Nat → Bool → Rng → Option (List Nat × Rng)
  | 0, _, _, _, _, _, _ => none
  | fuel + 1, out, outPos, pos1, pos2, useFirst, r =>
      if outPos < maxOut ∧ (pos1 < size1 ∨ pos2 < size2) then
        if useFirst then
          if pos1 < size1 then
            let extra := r.next.1 % (min (maxOut - outPos) (size1 - pos1) + 1)
            if pos1 + extra ≤ data1.length ∧ outPos < maxOut then do
              let srcSeg ← sliceGet data1 pos1 (pos1 + extra)
              let out' ← writeSlice out outPos srcSeg
              crossLoop data1 data2 size1 size2 maxOut fuel out' (outPos + extra)
                (pos1 + extra) pos2 false r.next.2
            else
              crossLoop data1 data2 size1 size2 maxOut fuel out outPos pos1 pos2
                false r.next.2
          else
            crossLoop data1 data2 size1 size2 maxOut fuel out outPos pos1 pos2 false r
        else
          if pos2 < size2 then
            let extra := r.next.1 % (min (maxOut - outPos) (size2 - pos2) + 1)
            if pos2 + extra ≤ data2.length ∧ outPos < maxOut then do
              let srcSeg ← sliceGet data2 pos2 (pos2 + extra)
              let out' ← writeSlice out outPos srcSeg
              crossLoop data1 data2 size1 size2 maxOut fuel out' (outPos + extra)
                pos1 (pos2 + extra) true r.next.2
            else
              crossLoop data1 data2 size1 size2 maxOut fuel out outPos pos1 pos2
                true r.next.2
          else
            crossLoop data1 data2 size1 size2 maxOut fuel out outPos pos1 pos2 true r
      else some (out, r)

/-- Embedding of `MutationEngine::cross_over`. -/
def crossOverM (e : Eng) : Option (MOut × Eng) := do
  let (data2, r1) ← getRandomCorpusEntry e.corpus e.prng
  if data2.isEmpty then none
  else
    let size2 := data2.length
    let data1 := e.testCase.data
    let size1 := e.testCase.size
    if data1.length + data2.length = 0 then none
    else
      let (v, r2) := r1.next
      let maxOut := v % (data1.length + data2.length) + 1
      let out0 := List.replicate maxOut 0
      let (out, r3) ← crossLoop data1 data2 size1 size2 maxOut e.crossFuel out0 0 0 0 true r2
      some (.ok, { e with
        prng := r3,
        testCase := { e.testCase with data := out, size := maxOut } })

/-- Embedding of `MutationEngine::splice`. -/
def spliceM (e : Eng) : Option (MOut × Eng) := do
  if e.corpus.isEmpty then none
  else do
    let (spliceTc, r1) ← pickL e.prng e.corpus
    let (splitIdx, r2) ← randRange r1 0 e.testCase.size
    let (spliceIdx, r3) ← randRange r2 0 spliceTc.length
    let pre ← sliceGet e.testCase.data 0 splitIdx
    let post ← sliceGet spliceTc spliceIdx spliceTc.length
    let newData := pre ++ post
    some (.ok, { e with
      prng := r3,
      testCase := { e.testCase with data := newData, size := newData.length } })

/-- Embedding of `MutationEngine::truncate`.  The new size
`(size as f64 * (1.0 - (k + 1) as f64 * 0.01)) as usize` is computed in IEEE
double arithmetic; the embedding takes that computation as the parameter
`tr : size -> k -> new_size` (the truncation-oracle hypothesis of the
theorems, `tr s k ≤ s`, holds for the source expression since the factor
`1.0 - (k + 1) * 0.01 ≤ 0.99..` keeps the rounded product strictly below
`size`).  `Vec::truncate` keeps the first `min(new_size, len)` bytes. -/
def truncateM (tr : Nat → Nat → Nat) (e : Eng) : Option (MOut × Eng) := do
  let (k, r1) ← randRange e.prng 0 50
  let newSize := tr e.testCase.size k
  some (.ok, { e with
    prng := r1,
    testCase := { e.testCase with
      size := newSize,
      data := e.testCase.data.take newSize } })

/-- Embedding of `MutationEngine::append`. -/
def appendM (e : Eng) : Option (MOut × Eng) := do
  if e.testCase.size < e.mutationPasses then none
  else do
    let (fromIdx, r1) ← randRange e.prng 0 (e.testCase.size - e.mutationPasses)
    let seg ← sliceGet e.testCase.data fromIdx (fromIdx + e.mutationPasses)
    some (.ok, { e with
      prng := r1,
      testCase := { e.testCase with
        data := e.testCase.data ++ seg,
        size := e.testCase.size + e.mutationPasses } })

/-- Embedding of `MutationEngine::add_from_magic`: pick a magic table by a
four-sided dice roll, then write the value at a random in-bounds window —
a zero value as zero bytes over the whole window, a non-zero value as its
significant bytes only, low byte first, at the high end of the window. -/
def addFromMagicM (e : Eng) : Option (MOut × Eng) := do
  let (dice, r1) ← randRange e.prng 0 4
  let (val, valSize, r2) ←
    (if dice = 0 then do
      let (v, r') ← pickL r1 MAGIC_8
      some (v, 1, r')
    else if dice = 1 then do
      let (v, r') ← pickL r1 MAGIC_16
      some (v, 2, r')
    else if dice = 2 then do
      let (v, r') ← pickL r1 MAGIC_32
      some (v, 4, r')
    else do
      let (v, r') ← pickL r1 MAGIC_64
      some (v, 8, r') : Option (Nat × Nat × Rng))
  if valSize > e.testCase.size then some (.err, { e with prng := r2 })
  else do
    let (idx, r3) ← getRandomIndex e.testCase.data r2 (some valSize)
    if idx + valSize ≥ e.testCase.size then some (.err, { e with prng := r3 })
    else
      if val = 0 then do
        let d' ← writeSlice e.testCase.data idx (List.replicate valSize 0)
        some (.ok, withData e d' r3)
      else
        let unsetBytes := byteLen val
        if idx + valSize < unsetBytes then none
        else do
          let start := idx + valSize - unsetBytes
          let d' ← writeSlice e.testCase.data start
            ((List.range unsetBytes).map (fun i => val / 2 ^ (8 * i) % 256))
          some (.ok, withData e d' r3)

/-- Embedding of `add_from_dict(dict, data, prng)`. -/
def addFromDict (dict : List (List Nat)) (data : List Nat) (r : Rng) :
    Option (MOut × List Nat × Rng) := do
  if dict.isEmpty then none
  else do
    let (val, r1) ← pickL r dict
    let valSize := val.length
    if valSize > data.length then some (.err, data, r1)
    else do
      let (toIdx, r2) ← randRange r1 0 (data.length - valSize)
      if valSize = 1 then do
        let d' ← setAt data toIdx (val.getD 0 0)
        some (.ok, d', r2)
      else
        let (b, r3) := rbool r2
        let val' := if b then val.reverse else val
        let d' ← writeSlice data toIdx val'
        some (.ok, d', r3)

/-- Embedding of `MutationEngine::add_word_from_dict`. -/
def addWordFromDictM (e : Eng) : Option (MOut × Eng) := do
  let (o, d', r') ← addFromDict e.userTokenDict e.testCase.data e.prng
  some (o, withData e d' r')

/-- Embedding of `MutationEngine::add_word_from_torc`. -/
def addWordFromTorcM (e : Eng) : Option (MOut × Eng) :=
  if e.torcTokenDict.isEmpty then some (.err, e)
  else do
    let (o, d', r') ← addFromDict e.torcTokenDict e.testCase.data e.prng
    some (o, withData e d' r')

/-- Embedding of `MutationEngine::ni`: run the `ni_mutate` oracle, `unwrap`
its result (panic on `Err`), and install the output as the new test case. -/
def niM (e : Eng) : Option (MOut × Eng) :=
  match e.niMutate e.testCase.data e.testCase.size e.prng e.corpus with
  | (some res, r') => some (.ok, setTestCase { e with prng := r' } res)
  | (none, _) => none

/-- Embedding of `MutationEngine::grammar_gen`: generate from the compiled
grammar's start token at depth 0 into a fresh buffer and install it. -/
def grammarGenM (e : Eng) : Option (MOut × Eng) :=
  match Grammar.generate e.grammar 0 e.grammarStart e.prng [] with
  | .ok r' out => some (.ok, setTestCase { e with prng := r' } out)
  | _ => none

/-- The dispatch `match` of `MutationEngine::mutate`: the two `Standard`
variants `Ni` and `GrammarGenerator` are not covered by any arm and fall into
`_ => unreachable!()`. -/
def runMutator (tr : Nat → Nat → Nat) (m : MTag) (e : Eng) : Option (MOut × Eng) :=
  match m with
  | .standard .shuffleBytes => shuffleBytesM e
  | .standard .eraseBytes => eraseBytesM e
  | .standard .insertBytes => insertBytesM e
  | .standard .swapNeighbors => swapNeighborsM e
  | .standard .swapEndianness => swapEndiannessM e
  | .standard .changeBit => changeBitM e
  | .standard .changeByte => changeByteM e
  | .standard .negateByte => negateByteM e
  | .standard .arithmeticWidth => arithmeticM e
  | .standard .copyPart => copyPartM e
  | .standard .changeASCIIInteger => changeAsciiIntegerM e
  | .standard .changeBinaryInteger => changeBinaryIntegerM e
  | .standard .crossOver => crossOverM e
  | .standard .splice => spliceM e
  | .standard .truncate => truncateM tr e
  | .standard .append => appendM e
  | .standard .addFromMagic => addFromMagicM e
  | .standard .addWordFromDict => addWordFromDictM e
  | .standard .addWordFromTORC => addWordFromTorcM e
  | .standard .ni => none
  | .standard .grammarGenerator => none
  | .custom .ni => niM e
  | .custom .grammarGenerator => grammarGenM e

/-- The per-pass loop of `MutationEngine::mutate`: pick a mutator uniformly,
run it, discard its `Result` (`let _ = match ..`). -/
def mutatePasses (tr : Nat → Nat → Nat) : Nat → Eng → Option Eng
  | 0, e => some e
  | n + 1, e => do
      let (m, r1) ← pickL e.prng e.mutators
      let (_, e') ← runMutator tr m { e with prng := r1 }
      mutatePasses tr n e'

/-- Embedding of `MutationEngine::mutate`: install a fresh corpus entry as
the test case, then run `mutation_passes` mutation passes. -/
def mutate (tr : Nat → Nat → Nat) (e : Eng) : Option Eng := do
  let e1 ← setNewTestCase e
  mutatePasses tr e1.mutationPasses e1

/-! ### Invariant preservation of the mutation passes -/

/-- The buffer bookkeeping invariant maintained by `mutate`: the `size` field
tracks the byte length and the read cursor sits at 0. -/
def TCInv (tc : TestCase) : Prop := tc.size = tc.data.length ∧ tc.dataPtr = 0

theorem shuffleBytesM_inv {e : Eng} {o : MOut} {e' : Eng}
    (h : shuffleBytesM e = some (o, e')) (hinv : TCInv e.testCase) :
    TCInv e'.testCase := by
  unfold shuffleBytesM at h
  split at h
  · cases h; exact hinv
  · simp only [Option.bind_eq_bind, Option.bind_eq_some] at h
    obtain ⟨⟨sa, r1⟩, h1, h⟩ := h
    obtain ⟨⟨ss, r2⟩, h2, h⟩ := h
    obtain ⟨seg, hseg, h⟩ := h
    obtain ⟨⟨seg', r3⟩, hsh, h⟩ := h
    obtain ⟨d', hd, h⟩ := h
    simp only [Option.some.injEq, Prod.mk.injEq] at h
    obtain ⟨-, he⟩ := h
    subst he
    obtain ⟨hs, hp⟩ := hinv
    exact ⟨by simp [withData, length_writeSlice hd, hs], by simp [withData, hp]⟩

theorem eraseLoop_inv {n : Nat} :
    ∀ {data : List Nat} {size : Nat} {r : Rng} {d' : List Nat} {s' : Nat} {r' : Rng},
      eraseLoop n data size r = some (d', s', r') → size = data.length →
      s' = d'.length := by
  induction n with
  | zero =>
      intro data size r d' s' r' h hs
      cases h
      exact hs
  | succ n ih =>
      intro data size r d' s' r' h hs
      unfold eraseLoop at h
      simp only [Option.bind_eq_bind, Option.bind_eq_some] at h
      obtain ⟨⟨idx, r1⟩, h1, h⟩ := h
      split at h
      · rename_i hlt
        split at h
        · exact absurd h (by simp)
        · rename_i hsz
          have := ih h (by rw [List.length_eraseIdx, if_pos hlt]; omega)
          exact this
      · exact absurd h (by simp)

theorem eraseBytesM_inv {e : Eng} {o : MOut} {e' : Eng}
    (h : eraseBytesM e = some (o, e')) (hinv : TCInv e.testCase) :
    TCInv e'.testCase := by
  unfold eraseBytesM at h
  obtain ⟨hs, hp⟩ := hinv
  split at h
  · cases h; exact ⟨hs, hp⟩
  · split at h
    split at h
    · simp only [Option.bind_eq_bind, Option.bind_eq_some] at h
      obtain ⟨⟨idx, r2⟩, h1, h⟩ := h
      split at h
      · rename_i hlt
        simp only [Option.some.injEq, Prod.mk.injEq] at h
        obtain ⟨-, he⟩ := h
        subst he
        refine ⟨?_, by simpa using hp⟩
        simp only
        rw [List.length_eraseIdx, if_pos hlt]
        omega
      · exact absurd h (by simp)
    · split at h
      · simp only [Option.bind_eq_bind, Option.bind_eq_some, Option.some_bind] at h
        obtain ⟨⟨d', s', r2⟩, h2, h⟩ := h
        simp only [Option.some.injEq, Prod.mk.injEq] at h
        obtain ⟨-, he⟩ := h
        subst he
        exact ⟨eraseLoop_inv h2 hs, by simpa using hp⟩
      · simp only [Option.bind_eq_bind, Option.bind_eq_some, Option.some_bind] at h
        obtain ⟨q, hq, h⟩ := h
        obtain ⟨⟨d', s', r2⟩, h2, h⟩ := h
        simp only [Option.some.injEq, Prod.mk.injEq] at h
        obtain ⟨-, he⟩ := h
        subst he
        exact ⟨eraseLoop_inv h2 hs, by simpa using hp⟩

theorem insertBytesM_inv {e : Eng} {o : MOut} {e' : Eng}
    (h : insertBytesM e = some (o, e')) (hinv : TCInv e.testCase) :
    TCInv e'.testCase := by
  unfold insertBytesM at h
  obtain ⟨hs, hp⟩ := hinv
  simp only [Option.bind_eq_bind, Option.bind_eq_some] at h
  obtain ⟨⟨idx, r2⟩, h1, h⟩ := h
  split at h
  · simp only [Option.bind_eq_bind, Option.bind_eq_some] at h
    obtain ⟨⟨idx2, r4⟩, h2, h⟩ := h
    split at h
    · rename_i hle
      simp only [Option.some.injEq, Prod.mk.injEq] at h
      obtain ⟨-, he⟩ := h
      subst he
      refine ⟨?_, by simpa using hp⟩
      simp only
      rw [List.length_insertIdx _ _ hle]
      omega
    · exact absurd h (by simp)
  · split at h
    · simp only [Option.some_bind] at h
      split at h
      · rename_i hle
        simp only [Option.some.injEq, Prod.mk.injEq] at h
        obtain ⟨-, he⟩ := h
        subst he
        refine ⟨?_, by simpa using hp⟩
        simp only [List.length_append, List.length_take, List.length_replicate,
          List.length_drop]
        omega
      · exact absurd h (by simp)
    · simp only [Option.bind_eq_bind, Option.bind_eq_some, Option.some_bind] at h
      obtain ⟨q, hq, h⟩ := h
      split at h
      · rename_i hle
        simp only [Option.some.injEq, Prod.mk.injEq] at h
        obtain ⟨-, he⟩ := h
        subst he
        refine ⟨?_, by simpa using hp⟩
        simp only [List.length_append, List.length_take, List.length_replicate,
          List.length_drop]
        omega
      · exact absurd h (by simp)

theorem swapNeighborsWidth_len {bytes : Nat} {data : List Nat} {dataSize : Nat}
    {r : Rng} {o : MOut} {d' : List Nat} {r' : Rng}
    (h : swapNeighborsWidth bytes data dataSize r = some (o, d', r')) :
    d'.length = data.length := by
  unfold swapNeighborsWidth at h
  split at h
  · simp only [Option.some.injEq, Prod.mk.injEq] at h
    obtain ⟨-, hd, -⟩ := h
    rw [← hd]
  · simp only [Option.bind_eq_bind, Option.bind_eq_some] at h
    obtain ⟨⟨idx, r1⟩, h1, h⟩ := h
    split at h
    · simp only [Option.bind_eq_some] at h
      obtain ⟨d2, hd2, h⟩ := h
      simp only [Option.some.injEq, Prod.mk.injEq] at h
      obtain ⟨-, hd, -⟩ := h
      rw [← hd]
      exact length_checkedSwaps hd2
    · split at h
      · simp only [Option.bind_eq_some] at h
        obtain ⟨d2, hd2, h⟩ := h
        simp only [Option.some.injEq, Prod.mk.injEq] at h
        obtain ⟨-, hd, -⟩ := h
        rw [← hd]
        exact length_checkedSwaps hd2
      · split at h
        · simp only [Option.bind_eq_bind, Option.bind_eq_some] at h
          obtain ⟨v, hv, h⟩ := h
          obtain ⟨d2, hd2, h⟩ := h
          simp only [Option.some.injEq, Prod.mk.injEq] at h
          obtain ⟨-, hd, -⟩ := h
          rw [← hd]
          exact length_setAt hd2
        · split at h
          · simp only [Option.bind_eq_some] at h
            obtain ⟨d2, hd2, h⟩ := h
            simp only [Option.some.injEq, Prod.mk.injEq] at h
            obtain ⟨-, hd, -⟩ := h
            rw [← hd]
            exact length_checkedSwaps hd2
          · simp only [Option.bind_eq_some] at h
            obtain ⟨d2, hd2, h⟩ := h
            simp only [Option.some.injEq, Prod.mk.injEq] at h
            obtain ⟨-, hd, -⟩ := h
            rw [← hd]
            exact length_checkedSwaps hd2

theorem swapNeighborsM_inv {e : Eng} {o : MOut} {e' : Eng}
    (h : swapNeighborsM e = some (o, e')) (hinv : TCInv e.testCase) :
    TCInv e'.testCase := by
  unfold swapNeighborsM at h
  obtain ⟨hs, hp⟩ := hinv
  simp only [Option.bind_eq_bind, Option.bind_eq_some] at h
  obtain ⟨⟨w, r1⟩, h1, h⟩ := h
  obtain ⟨⟨o2, d', r2⟩, h2, h⟩ := h
  simp only [Option.some.injEq, Prod.mk.injEq] at h
  obtain ⟨-, he⟩ := h
  subst he
  exact ⟨by simp [withData, swapNeighborsWidth_len h2, hs],
    by simp [withData, hp]⟩

theorem swapEndiannessM_inv {e : Eng} {o : MOut} {e' : Eng}
    (h : swapEndiannessM e = some (o, e')) (hinv : TCInv e.testCase) :
    TCInv e'.testCase := by
  unfold swapEndiannessM at h
  obtain ⟨hs, hp⟩ := hinv
  simp only [Option.bind_eq_bind, Option.bind_eq_some] at h
  obtain ⟨⟨w0, r1⟩, h1, h⟩ := h
  split at h
  · simp only [Option.some.injEq, Prod.mk.injEq] at h
    obtain ⟨-, he⟩ := h
    subst he
    exact ⟨hs, hp⟩
  · simp only [Option.bind_eq_bind, Option.bind_eq_some] at h
    obtain ⟨⟨idx, r2⟩, h2, h⟩ := h
    obtain ⟨seg, hseg, h⟩ := h
    obtain ⟨d', hd, h⟩ := h
    simp only [Option.some.injEq, Prod.mk.injEq] at h
    obtain ⟨-, he⟩ := h
    subst he
    exact ⟨by simp [withData, length_checkedSwaps hd, hs], by simp [withData, hp]⟩

theorem changeBitM_inv {e : Eng} {o : MOut} {e' : Eng}
    (h : changeBitM e = some (o, e')) (hinv : TCInv e.testCase) :
    TCInv e'.testCase := by
  unfold changeBitM at h
  obtain ⟨hs, hp⟩ := hinv
  simp only [Option.bind_eq_bind, Option.bind_eq_some] at h
  obtain ⟨⟨idx, r1⟩, h1, h⟩ := h
  obtain ⟨⟨bit, r2⟩, h2, h⟩ := h
  obtain ⟨v, hv, h⟩ := h
  obtain ⟨d', hd, h⟩ := h
  simp only [Option.some.injEq, Prod.mk.injEq] at h
  obtain ⟨-, he⟩ := h
  subst he
  exact ⟨by simp [withData, length_setAt hd, hs], by simp [withData, hp]⟩

theorem changeByteM_inv {e : Eng} {o : MOut} {e' : Eng}
    (h : changeByteM e = some (o, e')) (hinv : TCInv e.testCase) :
    TCInv e'.testCase := by
  unfold changeByteM at h
  obtain ⟨hs, hp⟩ := hinv
  simp only [Option.bind_eq_bind, Option.bind_eq_some] at h
  obtain ⟨⟨idx, r1⟩, h1, h⟩ := h
  obtain ⟨byte, hb, h⟩ := h
  obtain ⟨d', hd, h⟩ := h
  simp only [Option.some.injEq, Prod.mk.injEq] at h
  obtain ⟨-, he⟩ := h
  subst he
  exact ⟨by simp [withData, length_setAt hd, hs], by simp [withData, hp]⟩

theorem negateByteM_inv {e : Eng} {o : MOut} {e' : Eng}
    (h : negateByteM e = some (o, e')) (hinv : TCInv e.testCase) :
    TCInv e'.testCase := by
  unfold negateByteM at h
  obtain ⟨hs, hp⟩ := hinv
  simp only [Option.bind_eq_bind, Option.bind_eq_some] at h
  obtain ⟨⟨idx, r1⟩, h1, h⟩ := h
  obtain ⟨byte, hb, h⟩ := h
  obtain ⟨d', hd, h⟩ := h
  simp only [Option.some.injEq, Prod.mk.injEq] at h
  obtain ⟨-, he⟩ := h
  subst he
  exact ⟨by simp [withData, length_setAt hd, hs], by simp [withData, hp]⟩

theorem arithmeticW_len {bytes : Nat} {data : List Nat} {dataSize : Nat}
    {r : Rng} {o : MOut} {d' : List Nat} {r' : Rng}
    (h : arithmeticW bytes data dataSize r = some (o, d', r')) :
    d'.length = data.length := by
  unfold arithmeticW at h
  split at h
  · simp only [Option.some.injEq, Prod.mk.injEq] at h
    obtain ⟨-, hd, -⟩ := h
    rw [← hd]
  · simp only [Option.bind_eq_bind, Option.bind_eq_some] at h
    obtain ⟨⟨idx, r1⟩, h1, h⟩ := h
    obtain ⟨vals, hv, h⟩ := h
    obtain ⟨⟨op, r2⟩, h2, h⟩ := h
    obtain ⟨d2, hd2, h⟩ := h
    simp only [Option.some.injEq, Prod.mk.injEq] at h
    obtain ⟨-, hd, -⟩ := h
    rw [← hd]
    exact length_writeSlice hd2

theorem arithmeticM_inv {e : Eng} {o : MOut} {e' : Eng}
    (h : arithmeticM e = some (o, e')) (hinv : TCInv e.testCase) :
    TCInv e'.testCase := by
  unfold arithmeticM at h
  obtain ⟨hs, hp⟩ := hinv
  simp only [Option.bind_eq_bind, Option.bind_eq_some] at h
  obtain ⟨⟨w, r1⟩, h1, h⟩ := h
  obtain ⟨⟨o2, d', r2⟩, h2, h⟩ := h
  simp only [Option.some.injEq, Prod.mk.injEq] at h
  obtain ⟨-, he⟩ := h
  subst he
  exact ⟨by simp [withData, arithmeticW_len h2, hs], by simp [withData, hp]⟩

theorem copyPartOf_fields {src : List Nat} {tcs : TestCase} {r : Rng}
    {tc' : TestCase} {r' : Rng} (h : copyPartOf src tcs r = some (tc', r')) :
    tc'.data.length = tcs.data.length ∧ tc'.size = tcs.size ∧
      tc'.dataPtr = tcs.dataPtr := by
  unfold copyPartOf at h
  simp only [Option.bind_eq_bind, Option.bind_eq_some] at h
  obtain ⟨⟨toIdx, r1⟩, h1, h⟩ := h
  split at h
  · exact absurd h (by simp)
  · simp only [Option.bind_eq_bind, Option.bind_eq_some] at h
    obtain ⟨⟨cs0, r2⟩, h2, h⟩ := h
    split at h
    · exact absurd h (by simp)
    · simp only [Option.bind_eq_bind, Option.bind_eq_some] at h
      obtain ⟨⟨fromIdx, r3⟩, h3, h⟩ := h
      split at h
      · simp only [Option.bind_eq_bind, Option.bind_eq_some] at h
        obtain ⟨b, hb, h⟩ := h
        obtain ⟨old, hold, h⟩ := h
        obtain ⟨d', hd, h⟩ := h
        simp only [Option.some.injEq, Prod.mk.injEq] at h
        obtain ⟨he, -⟩ := h
        subst he
        exact ⟨by simpa using length_setAt hd, rfl, rfl⟩
      · simp only [Option.bind_eq_bind, Option.bind_eq_some] at h
        obtain ⟨cslice, hcs, h⟩ := h
        obtain ⟨d', hd, h⟩ := h
        simp only [Option.some.injEq, Prod.mk.injEq] at h
        obtain ⟨he, -⟩ := h
        subst he
        exact ⟨by simpa using length_writeSlice hd, rfl, rfl⟩

theorem insertPartOf_fields {src : List Nat} {tcs : TestCase} {r : Rng}
    {maxSize : Nat} {tc' : TestCase} {r' : Rng}
    (h : insertPartOf src tcs r maxSize = some (tc', r')) :
    tc'.size = tc'.data.length ∧ tc'.dataPtr = tcs.dataPtr := by
  unfold insertPartOf at h
  split at h
  · exact absurd h (by simp)
  · split at h
    · exact absurd h (by simp)
    · simp only [Option.bind_eq_bind, Option.bind_eq_some] at h
      obtain ⟨⟨copySize, r1⟩, h1, h⟩ := h
      by_cases hc : src.length < copySize
      · rw [if_pos hc] at h
        exact absurd h (by simp)
      · rw [if_neg hc] at h
        simp only [Option.bind_eq_bind, Option.bind_eq_some] at h
        obtain ⟨⟨fromIdx, r2⟩, h2, h⟩ := h
        obtain ⟨⟨toIdx, r3⟩, h3, h⟩ := h
        obtain ⟨pre, hpre, h⟩ := h
        obtain ⟨w1, hw1, h⟩ := h
        obtain ⟨mid, hmid, h⟩ := h
        obtain ⟨w2, hw2, h⟩ := h
        obtain ⟨post, hpost, h⟩ := h
        by_cases hfit : toIdx + copySize + post.length = w2.length
        · rw [if_pos hfit] at h
          simp only [Option.bind_eq_bind, Option.bind_eq_some] at h
          obtain ⟨w3, hw3, h⟩ := h
          simp only [Option.some.injEq, Prod.mk.injEq] at h
          obtain ⟨he, -⟩ := h
          subst he
          refine ⟨?_, rfl⟩
          simp only
          rw [length_writeSlice hw3, length_writeSlice hw2, length_writeSlice hw1,
            List.length_replicate]
        · rw [if_neg hfit] at h
          exact absurd h (by simp)

theorem copyPartM_inv {e : Eng} {o : MOut} {e' : Eng}
    (h : copyPartM e = some (o, e')) (hinv : TCInv e.testCase) :
    TCInv e'.testCase := by
  unfold copyPartM at h
  obtain ⟨hs, hp⟩ := hinv
  simp only [Option.bind_eq_bind, Option.bind_eq_some] at h
  obtain ⟨⟨randTc, r1⟩, h1, h⟩ := h
  split at h
  · exact absurd h (by simp)
  · split at h
    · simp only [Option.bind_eq_bind, Option.bind_eq_some] at h
      obtain ⟨⟨tc2, r3⟩, h2, h⟩ := h
      simp only [Option.some.injEq, Prod.mk.injEq] at h
      obtain ⟨-, he⟩ := h
      subst he
      obtain ⟨hl, hsz, hptr⟩ := copyPartOf_fields h2
      exact ⟨by simp only; omega, by simp only; omega⟩
    · simp only [Option.bind_eq_bind, Option.bind_eq_some] at h
      obtain ⟨⟨ms, r3⟩, h2, h⟩ := h
      obtain ⟨⟨tc2, r4⟩, h3, h⟩ := h
      simp only [Option.some.injEq, Prod.mk.injEq] at h
      obtain ⟨-, he⟩ := h
      subst he
      obtain ⟨hsz, hptr⟩ := insertPartOf_fields h3
      exact ⟨by simp only; omega, by simp only; omega⟩

theorem changeAsciiIntegerM_inv {e : Eng} {o : MOut} {e' : Eng}
    (h : changeAsciiIntegerM e = some (o, e')) (hinv : TCInv e.testCase) :
    TCInv e'.testCase := by
  unfold changeAsciiIntegerM at h
  obtain ⟨hs, hp⟩ := hinv
  simp only [Option.bind_eq_bind, Option.bind_eq_some] at h
  obtain ⟨⟨skipPast, r1⟩, h1, h⟩ := h
  obtain ⟨tail, htail, h⟩ := h
  split at h
  · exact absurd h (by simp)
  · split at h
    · simp only [Option.bind_eq_bind, Option.bind_eq_some] at h
      obtain ⟨window, hw, h⟩ := h
      obtain ⟨⟨op, r2⟩, h2, h⟩ := h
      obtain ⟨⟨val1, r3⟩, h3, h⟩ := h
      obtain ⟨d', hd, h⟩ := h
      simp only [Option.some.injEq, Prod.mk.injEq] at h
      obtain ⟨-, he⟩ := h
      subst he
      exact ⟨by simp [withData, length_writeSlice hd, hs], by simp [withData, hp]⟩
    · simp only [Option.bind_eq_bind, Option.bind_eq_some] at h
      obtain ⟨v, hv, h⟩ := h
      obtain ⟨d', hd, h⟩ := h
      simp only [Option.some.injEq, Prod.mk.injEq] at h
      obtain ⟨-, he⟩ := h
      subst he
      exact ⟨by simp [withData, length_setAt hd, hs], by simp [withData, hp]⟩

theorem changeBinaryIntegerM_inv {e : Eng} {o : MOut} {e' : Eng}
    (h : changeBinaryIntegerM e = some (o, e')) (hinv : TCInv e.testCase) :
    TCInv e'.testCase := by
  unfold changeBinaryIntegerM at h
  obtain ⟨hs, hp⟩ := hinv
  simp only [Option.bind_eq_bind, Option.bind_eq_some] at h
  obtain ⟨⟨binSize, r1⟩, h1, h⟩ := h
  by_cases hc : e.testCase.size < binSize
  · rw [if_pos hc] at h
    simp only [Option.some.injEq, Prod.mk.injEq] at h
    obtain ⟨-, he⟩ := h
    subst he
    exact ⟨hs, hp⟩
  · rw [if_neg hc] at h
    simp only [Option.bind_eq_bind, Option.bind_eq_some] at h
    obtain ⟨⟨off, r2⟩, h2, h⟩ := h
    obtain ⟨⟨addRaw, r3⟩, h3, h⟩ := h
    obtain ⟨⟨val0, r4⟩, h4, h⟩ := h
    obtain ⟨⟨val2, r6⟩, h5, h⟩ := h
    obtain ⟨d', hd, h⟩ := h
    simp only [Option.some.injEq, Prod.mk.injEq] at h
    obtain ⟨-, he⟩ := h
    subst he
    exact ⟨by simp [withData, length_writeSlice hd, hs], by simp [withData, hp]⟩

theorem crossLoop_len {data1 data2 : List Nat} {size1 size2 maxOut : Nat} :
    ∀ (fuel : Nat) (out : List Nat) (outPos pos1 pos2 : Nat) (uf : Bool) (r : Rng)
      (out' : List Nat) (r' : Rng),
      crossLoop data1 data2 size1 size2 maxOut fuel out outPos pos1 pos2 uf r
        = some (out', r') → out'.length = out.length := by
  intro fuel
  induction fuel with
  | zero =>
      intro out outPos pos1 pos2 uf r out' r' h
      exact absurd h (by simp [crossLoop])
  | succ f ih =>
      intro out outPos pos1 pos2 uf r out' r' h
      unfold crossLoop at h
      split at h
      · split at h
        · split at h
          · simp only [] at h
            split at h
            · simp only [Option.bind_eq_bind, Option.bind_eq_some] at h
              obtain ⟨srcSeg, hsrc, h⟩ := h
              obtain ⟨out2, hout2, h⟩ := h
              rw [ih _ _ _ _ _ _ _ _ h, length_writeSlice hout2]
            · exact ih _ _ _ _ _ _ _ _ h
          · exact ih _ _ _ _ _ _ _ _ h
        · split at h
          · simp only [] at h
            split at h
            · simp only [Option.bind_eq_bind, Option.bind_eq_some] at h
              obtain ⟨srcSeg, hsrc, h⟩ := h
              obtain ⟨out2, hout2, h⟩ := h
              rw [ih _ _ _ _ _ _ _ _ h, length_writeSlice hout2]
            · exact ih _ _ _ _ _ _ _ _ h
          · exact ih _ _ _ _ _ _ _ _ h
      · simp only [Option.some.injEq, Prod.mk.injEq] at h
        obtain ⟨ho, -⟩ := h
        rw [← ho]

theorem crossOverM_inv {e : Eng} {o : MOut} {e' : Eng}
    (h : crossOverM e = some (o, e')) (hinv : TCInv e.testCase) :
    TCInv e'.testCase := by
  unfold crossOverM at h
  obtain ⟨hs, hp⟩ := hinv
  simp only [Option.bind_eq_bind, Option.bind_eq_some] at h
  obtain ⟨⟨data2, r1⟩, h1, h⟩ := h
  split at h
  · exact absurd h (by simp)
  · split at h
    · exact absurd h (by simp)
    · simp only [Option.bind_eq_bind, Option.bind_eq_some] at h
      obtain ⟨⟨out, r3⟩, h2, h⟩ := h
      simp only [Option.some.injEq, Prod.mk.injEq] at h
      obtain ⟨-, he⟩ := h
      subst he
      refine ⟨?_, by simpa using hp⟩
      simp only
      rw [crossLoop_len _ _ _ _ _ _ _ _ _ h2, List.length_replicate]

theorem spliceM_inv {e : Eng} {o : MOut} {e' : Eng}
    (h : spliceM e = some (o, e')) (hinv : TCInv e.testCase) :
    TCInv e'.testCase := by
  unfold spliceM at h
  obtain ⟨hs, hp⟩ := hinv
  split at h
  · exact absurd h (by simp)
  · simp only [Option.bind_eq_bind, Option.bind_eq_some] at h
    obtain ⟨⟨spliceTc, r1⟩, h1, h⟩ := h
    obtain ⟨⟨splitIdx, r2⟩, h2, h⟩ := h
    obtain ⟨⟨spliceIdx, r3⟩, h3, h⟩ := h
    obtain ⟨pre, hpre, h⟩ := h
    obtain ⟨post, hpost, h⟩ := h
    simp only [Option.some.injEq, Prod.mk.injEq] at h
    obtain ⟨-, he⟩ := h
    subst he
    exact ⟨rfl, by simpa using hp⟩

theorem truncateM_inv {tr : Nat → Nat → Nat} {e : Eng} {o : MOut} {e' : Eng}
    (htr : ∀ s k, tr s k ≤ s)
    (h : truncateM tr e = some (o, e')) (hinv : TCInv e.testCase) :
    TCInv e'.testCase := by
  unfold truncateM at h
  obtain ⟨hs, hp⟩ := hinv
  simp only [Option.bind_eq_bind, Option.bind_eq_some] at h
  obtain ⟨⟨k, r1⟩, h1, h⟩ := h
  simp only [Option.some.injEq, Prod.mk.injEq] at h
  obtain ⟨-, he⟩ := h
  subst he
  refine ⟨?_, by simpa using hp⟩
  simp only [List.length_take]
  have := htr e.testCase.size k
  omega

theorem appendM_inv {e : Eng} {o : MOut} {e' : Eng}
    (h : appendM e = some (o, e')) (hinv : TCInv e.testCase) :
    TCInv e'.testCase := by
  unfold appendM at h
  obtain ⟨hs, hp⟩ := hinv
  split at h
  · exact absurd h (by simp)
  · simp only [Option.bind_eq_bind, Option.bind_eq_some] at h
    obtain ⟨⟨fromIdx, r1⟩, h1, h⟩ := h
    obtain ⟨seg, hseg, h⟩ := h
    simp only [Option.some.injEq, Prod.mk.injEq] at h
    obtain ⟨-, he⟩ := h
    subst he
    refine ⟨?_, by simpa using hp⟩
    simp only [List.length_append]
    rw [length_sliceGet hseg]
    omega

theorem addFromMagicM_inv {e : Eng} {o : MOut} {e' : Eng}
    (h : addFromMagicM e = some (o, e')) (hinv : TCInv e.testCase) :
    TCInv e'.testCase := by
  unfold addFromMagicM at h
  obtain ⟨hs, hp⟩ := hinv
  simp only [Option.bind_eq_bind, Option.bind_eq_some] at h
  obtain ⟨⟨dice, r1⟩, h0, h⟩ := h
  obtain ⟨⟨val, valSize, r2⟩, h1, h⟩ := h
  split at h
  · simp only [Option.some.injEq, Prod.mk.injEq] at h
    obtain ⟨-, he⟩ := h
    subst he
    exact ⟨hs, hp⟩
  · simp only [Option.bind_eq_bind, Option.bind_eq_some] at h
    obtain ⟨⟨idx, r3⟩, h2, h⟩ := h
    split at h
    · simp only [Option.some.injEq, Prod.mk.injEq] at h
      obtain ⟨-, he⟩ := h
      subst he
      exact ⟨hs, hp⟩
    · split at h
      · simp only [Option.bind_eq_bind, Option.bind_eq_some] at h
        obtain ⟨d', hd, h⟩ := h
        simp only [Option.some.injEq, Prod.mk.injEq] at h
        obtain ⟨-, he⟩ := h
        subst he
        exact ⟨by simp [withData, length_writeSlice hd, hs], by simp [withData, hp]⟩
      · split at h
        · exact absurd h (by simp)
        · simp only [Option.bind_eq_bind, Option.bind_eq_some] at h
          obtain ⟨d', hd, h⟩ := h
          simp only [Option.some.injEq, Prod.mk.injEq] at h
          obtain ⟨-, he⟩ := h
          subst he
          exact ⟨by simp [withData, length_writeSlice hd, hs], by simp [withData, hp]⟩

theorem addFromDict_len {dict : List (List Nat)} {data : List Nat} {r : Rng}
    {o : MOut} {d' : List Nat} {r' : Rng}
    (h : addFromDict dict data r = some (o, d', r')) : d'.length = data.length := by
  unfold addFromDict at h
  split at h
  · exact absurd h (by simp)
  · simp only [Option.bind_eq_bind, Option.bind_eq_some] at h
    obtain ⟨⟨val, r1⟩, h1, h⟩ := h
    split at h
    · simp only [Option.some.injEq, Prod.mk.injEq] at h
      obtain ⟨-, hd, -⟩ := h
      rw [← hd]
    · simp only [Option.bind_eq_bind, Option.bind_eq_some] at h
      obtain ⟨⟨toIdx, r2⟩, h2, h⟩ := h
      split at h
      · simp only [Option.bind_eq_some] at h
        obtain ⟨d2, hd2, h⟩ := h
        simp only [Option.some.injEq, Prod.mk.injEq] at h
        obtain ⟨-, hd, -⟩ := h
        rw [← hd]
        exact length_setAt hd2
      · simp only [Option.bind_eq_bind, Option.bind_eq_some] at h
        obtain ⟨d2, hd2, h⟩ := h
        simp only [Option.some.injEq, Prod.mk.injEq] at h
        obtain ⟨-, hd, -⟩ := h
        rw [← hd]
        exact length_writeSlice hd2

theorem addWordFromDictM_inv {e : Eng} {o : MOut} {e' : Eng}
    (h : addWordFromDictM e = some (o, e')) (hinv : TCInv e.testCase) :
    TCInv e'.testCase := by
  unfold addWordFromDictM at h
  obtain ⟨hs, hp⟩ := hinv
  simp only [Option.bind_eq_bind, Option.bind_eq_some] at h
  obtain ⟨⟨o2, d', r'⟩, h1, h⟩ := h
  simp only [Option.some.injEq, Prod.mk.injEq] at h
  obtain ⟨-, he⟩ := h
  subst he
  exact ⟨by simp [withData, addFromDict_len h1, hs], by simp [withData, hp]⟩

theorem addWordFromTorcM_inv {e : Eng} {o : MOut} {e' : Eng}
    (h : addWordFromTorcM e = some (o, e')) (hinv : TCInv e.testCase) :
    TCInv e'.testCase := by
  unfold addWordFromTorcM at h
  obtain ⟨hs, hp⟩ := hinv
  split at h
  · cases h; exact ⟨hs, hp⟩
  · simp only [Option.bind_eq_bind, Option.bind_eq_some] at h
    obtain ⟨⟨o2, d', r'⟩, h1, h⟩ := h
    simp only [Option.some.injEq, Prod.mk.injEq] at h
    obtain ⟨-, he⟩ := h
    subst he
    exact ⟨by simp [withData, addFromDict_len h1, hs], by simp [withData, hp]⟩

theorem niM_inv {e : Eng} {o : MOut} {e' : Eng}
    (h : niM e = some (o, e')) : TCInv e'.testCase := by
  unfold niM at h
  split at h
  · rename_i res r' heq
    simp only [Option.some.injEq, Prod.mk.injEq] at h
    obtain ⟨-, he⟩ := h
    subst he
    exact ⟨rfl, rfl⟩
  · exact absurd h (by simp)

theorem grammarGenM_inv {e : Eng} {o : MOut} {e' : Eng}
    (h : grammarGenM e = some (o, e')) : TCInv e'.testCase := by
  unfold grammarGenM at h
  split at h
  · simp only [Option.some.injEq, Prod.mk.injEq] at h
    obtain ⟨-, he⟩ := h
    subst he
    exact ⟨rfl, rfl⟩
  · exact absurd h (by simp)

theorem runMutator_inv {tr : Nat → Nat → Nat} {m : MTag} {e : Eng} {o : MOut}
    {e' : Eng} (htr : ∀ s k, tr s k ≤ s)
    (h : runMutator tr m e = some (o, e')) (hinv : TCInv e.testCase) :
    TCInv e'.testCase := by
  cases m with
  | standard s =>
      cases s
      case shuffleBytes => exact shuffleBytesM_inv h hinv
      case eraseBytes => exact eraseBytesM_inv h hinv
      case insertBytes => exact insertBytesM_inv h hinv
      case swapNeighbors => exact swapNeighborsM_inv h hinv
      case swapEndianness => exact swapEndiannessM_inv h hinv
      case changeBit => exact changeBitM_inv h hinv
      case changeByte => exact changeByteM_inv h hinv
      case negateByte => exact negateByteM_inv h hinv
      case arithmeticWidth => exact arithmeticM_inv h hinv
      case copyPart => exact copyPartM_inv h hinv
      case changeASCIIInteger => exact changeAsciiIntegerM_inv h hinv
      case changeBinaryInteger => exact changeBinaryIntegerM_inv h hinv
      case crossOver => exact crossOverM_inv h hinv
      case splice => exact spliceM_inv h hinv
      case truncate => exact truncateM_inv htr h hinv
      case append => exact appendM_inv h hinv
      case addFromMagic => exact addFromMagicM_inv h hinv
      case addWordFromDict => exact addWordFromDictM_inv h hinv
      case addWordFromTORC => exact addWordFromTorcM_inv h hinv
      case ni => exact absurd h (by simp [runMutator])
      case grammarGenerator => exact absurd h (by simp [runMutator])
  | custom c =>
      cases c
      case ni => exact niM_inv h
      case grammarGenerator => exact grammarGenM_inv h

theorem mutatePasses_inv {tr : Nat → Nat → Nat} (htr : ∀ s k, tr s k ≤ s) :
    ∀ {n : Nat} {e e' : Eng},
      mutatePasses tr n e = some e' → TCInv e.testCase → TCInv e'.testCase := by
  intro n
  induction n with
  | zero =>
      intro e e' h hinv
      cases h
      exact hinv
  | succ n ih =>
      intro e e' h hinv
      unfold mutatePasses at h
      simp only [Option.bind_eq_bind, Option.bind_eq_some] at h
      obtain ⟨⟨m, r1⟩, h1, h⟩ := h
      obtain ⟨⟨o2, e2⟩, h2, h⟩ := h
      exact ih h (runMutator_inv htr h2 hinv)

theorem setNewTestCase_inv {e e' : Eng} (h : setNewTestCase e = some e') :
    TCInv e'.testCase := by
  unfold setNewTestCase at h
  split at h
  · exact absurd h (by simp)
  · simp only [Option.bind_eq_bind, Option.bind_eq_some] at h
    obtain ⟨⟨idx, r1⟩, h1, h⟩ := h
    split at h
    · exact absurd h (by simp)
    · simp only [Option.some.injEq] at h
      subst h
      exact ⟨rfl, rfl⟩

theorem mutate_inv {tr : Nat → Nat → Nat} {e e' : Eng} (htr : ∀ s k, tr s k ≤ s)
    (h : mutate tr e = some e') : TCInv e'.testCase := by
  unfold mutate at h
  simp only [Option.bind_eq_bind, Option.bind_eq_some] at h
  obtain ⟨e1, h1, h⟩ := h
  exact mutatePasses_inv htr h (setNewTestCase_inv h1)

/-! ### A failed standard mutator leaves the buffer untouched -/

theorem shuffleBytesM_err {e e' : Eng} (h : shuffleBytesM e = some (.err, e')) :
    e'.testCase.data = e.testCase.data ∧ e'.testCase.size = e.testCase.size := by
  unfold shuffleBytesM at h
  split at h
  · injection h with h1
    injection h1 with h2 h3
    subst h3
    exact ⟨rfl, rfl⟩
  · simp only [Option.bind_eq_bind, Option.bind_eq_some] at h
    obtain ⟨⟨sa, r1⟩, h1, h⟩ := h
    obtain ⟨⟨ss, r2⟩, h2, h⟩ := h
    obtain ⟨seg, hseg, h⟩ := h
    obtain ⟨⟨seg2, r3⟩, hsh, h⟩ := h
    obtain ⟨d', hd, h⟩ := h
    exact absurd h (by simp)

theorem eraseBytesM_err {e e' : Eng} (h : eraseBytesM e = some (.err, e')) :
    e'.testCase.data = e.testCase.data ∧ e'.testCase.size = e.testCase.size := by
  unfold eraseBytesM at h
  split at h
  · injection h with h1
    injection h1 with h2 h3
    subst h3
    exact ⟨rfl, rfl⟩
  · split at h
    split at h
    · simp only [Option.bind_eq_bind, Option.bind_eq_some] at h
      obtain ⟨⟨idx, r2⟩, h1, h⟩ := h
      split at h
      · exact absurd h (by simp)
      · exact absurd h (by simp)
    · split at h
      · simp only [Option.bind_eq_bind, Option.bind_eq_some, Option.some_bind] at h
        obtain ⟨⟨d2, s2, r2⟩, h2, h⟩ := h
        exact absurd h (by simp)
      · simp only [Option.bind_eq_bind, Option.bind_eq_some, Option.some_bind] at h
        obtain ⟨q, hq, h⟩ := h
        obtain ⟨⟨d2, s2, r2⟩, h2, h⟩ := h
        exact absurd h (by simp)

theorem insertBytesM_err {e e' : Eng} (h : insertBytesM e = some (.err, e')) :
    e'.testCase.data = e.testCase.data ∧ e'.testCase.size = e.testCase.size := by
  unfold insertBytesM at h
  simp only [Option.bind_eq_bind, Option.bind_eq_some] at h
  obtain ⟨⟨idx, r2⟩, h1, h⟩ := h
  split at h
  · simp only [Option.bind_eq_bind, Option.bind_eq_some] at h
    obtain ⟨⟨idx2, r4⟩, h2, h⟩ := h
    split at h
    · exact absurd h (by simp)
    · exact absurd h (by simp)
  · split at h
    · simp only [Option.some_bind] at h
      split at h
      · exact absurd h (by simp)
      · exact absurd h (by simp)
    · simp only [Option.bind_eq_bind, Option.bind_eq_some, Option.some_bind] at h
      obtain ⟨q, hq, h⟩ := h
      split at h
      · exact absurd h (by simp)
      · exact absurd h (by simp)

theorem swapNeighborsWidth_err {bytes : Nat} {data : List Nat} {dataSize : Nat}
    {r : Rng} {d' : List Nat} {r' : Rng}
    (h : swapNeighborsWidth bytes data dataSize r = some (.err, d', r')) :
    d' = data := by
  unfold swapNeighborsWidth at h
  split at h
  · injection h with h1
    injection h1 with h2 h3
    injection h3 with h4 h5
    exact h4.symm
  · simp only [Option.bind_eq_bind, Option.bind_eq_some] at h
    obtain ⟨⟨idx, r1⟩, h1, h⟩ := h
    split at h
    · simp only [Option.bind_eq_some] at h
      obtain ⟨d2, hd2, h⟩ := h
      exact absurd h (by simp)
    · split at h
      · simp only [Option.bind_eq_some] at h
        obtain ⟨d2, hd2, h⟩ := h
        exact absurd h (by simp)
      · split at h
        · simp only [Option.bind_eq_bind, Option.bind_eq_some] at h
          obtain ⟨v, hv, h⟩ := h
          obtain ⟨d2, hd2, h⟩ := h
          exact absurd h (by simp)
        · split at h
          · simp only [Option.bind_eq_some] at h
            obtain ⟨d2, hd2, h⟩ := h
            exact absurd h (by simp)
          · simp only [Option.bind_eq_some] at h
            obtain ⟨d2, hd2, h⟩ := h
            exact absurd h (by simp)

theorem swapNeighborsM_err {e e' : Eng} (h : swapNeighborsM e = some (.err, e')) :
    e'.testCase.data = e.testCase.data ∧ e'.testCase.size = e.testCase.size := by
  unfold swapNeighborsM at h
  simp only [Option.bind_eq_bind, Option.bind_eq_some] at h
  obtain ⟨⟨w, r1⟩, h1, h⟩ := h
  obtain ⟨⟨o2, d', r2⟩, h2, h⟩ := h
  injection h with h3
  injection h3 with ho he
  subst he
  subst ho
  have hd := swapNeighborsWidth_err h2
  subst hd
  exact ⟨rfl, rfl⟩

theorem swapEndiannessM_err {e e' : Eng} (h : swapEndiannessM e = some (.err, e')) :
    e'.testCase.data = e.testCase.data ∧ e'.testCase.size = e.testCase.size := by
  unfold swapEndiannessM at h
  simp only [Option.bind_eq_bind, Option.bind_eq_some] at h
  obtain ⟨⟨w0, r1⟩, h1, h⟩ := h
  split at h
  · injection h with h2
    injection h2 with ho he
    subst he
    exact ⟨rfl, rfl⟩
  · simp only [Option.bind_eq_bind, Option.bind_eq_some] at h
    obtain ⟨⟨idx, r2⟩, h2, h⟩ := h
    obtain ⟨seg, hseg, h⟩ := h
    obtain ⟨d', hd, h⟩ := h
    exact absurd h (by simp)

theorem changeBitM_err {e e' : Eng} (h : changeBitM e = some (.err, e')) :
    e'.testCase.data = e.testCase.data ∧ e'.testCase.size = e.testCase.size := by
  unfold changeBitM at h
  simp only [Option.bind_eq_bind, Option.bind_eq_some] at h
  obtain ⟨⟨idx, r1⟩, h1, h⟩ := h
  obtain ⟨⟨bit, r2⟩, h2, h⟩ := h
  obtain ⟨v, hv, h⟩ := h
  obtain ⟨d', hd, h⟩ := h
  exact absurd h (by simp)

theorem changeByteM_err {e e' : Eng} (h : changeByteM e = some (.err, e')) :
    e'.testCase.data = e.testCase.data ∧ e'.testCase.size = e.testCase.size := by
  unfold changeByteM at h
  simp only [Option.bind_eq_bind, Option.bind_eq_some] at h
  obtain ⟨⟨idx, r1⟩, h1, h⟩ := h
  obtain ⟨byte, hb, h⟩ := h
  obtain ⟨d', hd, h⟩ := h
  exact absurd h (by simp)

theorem negateByteM_err {e e' : Eng} (h : negateByteM e = some (.err, e')) :
    e'.testCase.data = e.testCase.data ∧ e'.testCase.size = e.testCase.size := by
  unfold negateByteM at h
  simp only [Option.bind_eq_bind, Option.bind_eq_some] at h
  obtain ⟨⟨idx, r1⟩, h1, h⟩ := h
  obtain ⟨byte, hb, h⟩ := h
  obtain ⟨d', hd, h⟩ := h
  exact absurd h (by simp)

theorem arithmeticW_err {bytes : Nat} {data : List Nat} {dataSize : Nat}
    {r : Rng} {d' : List Nat} {r' : Rng}
    (h : arithmeticW bytes data dataSize r = some (.err, d', r')) : d' = data := by
  unfold arithmeticW at h
  split at h
  · injection h with h1
    injection h1 with h2 h3
    injection h3 with h4 h5
    exact h4.symm
  · simp only [Option.bind_eq_bind, Option.bind_eq_some] at h
    obtain ⟨⟨idx, r1⟩, h1, h⟩ := h
    obtain ⟨vals, hv, h⟩ := h
    obtain ⟨⟨op, r2⟩, h2, h⟩ := h
    obtain ⟨d2, hd2, h⟩ := h
    exact absurd h (by simp)

theorem arithmeticM_err {e e' : Eng} (h : arithmeticM e = some (.err, e')) :
    e'.testCase.data = e.testCase.data ∧ e'.testCase.size = e.testCase.size := by
  unfold arithmeticM at h
  simp only [Option.bind_eq_bind, Option.bind_eq_some] at h
  obtain ⟨⟨w, r1⟩, h1, h⟩ := h
  obtain ⟨⟨o2, d', r2⟩, h2, h⟩ := h
  injection h with h3
  injection h3 with ho he
  subst he
  subst ho
  have hd := arithmeticW_err h2
  subst hd
  exact ⟨rfl, rfl⟩

theorem copyPartM_err {e e' : Eng} (h : copyPartM e = some (.err, e')) :
    e'.testCase.data = e.testCase.data ∧ e'.testCase.size = e.testCase.size := by
  unfold copyPartM at h
  simp only [Option.bind_eq_bind, Option.bind_eq_some] at h
  obtain ⟨⟨randTc, r1⟩, h1, h⟩ := h
  split at h
  · exact absurd h (by simp)
  · split at h
    · simp only [Option.bind_eq_bind, Option.bind_eq_some] at h
      obtain ⟨⟨tc2, r3⟩, h2, h⟩ := h
      exact absurd h (by simp)
    · simp only [Option.bind_eq_bind, Option.bind_eq_some] at h
      obtain ⟨⟨ms, r3⟩, h2, h⟩ := h
      obtain ⟨⟨tc2, r4⟩, h3, h⟩ := h
      exact absurd h (by simp)

theorem changeAsciiIntegerM_err {e e' : Eng}
    (h : changeAsciiIntegerM e = some (.err, e')) :
    e'.testCase.data = e.testCase.data ∧ e'.testCase.size = e.testCase.size := by
  unfold changeAsciiIntegerM at h
  simp only [Option.bind_eq_bind, Option.bind_eq_some] at h
  obtain ⟨⟨skipPast, r1⟩, h1, h⟩ := h
  obtain ⟨tail, htail, h⟩ := h
  split at h
  · exact absurd h (by simp)
  · split at h
    · simp only [Option.bind_eq_bind, Option.bind_eq_some] at h
      obtain ⟨window, hw, h⟩ := h
      obtain ⟨⟨op, r2⟩, h2, h⟩ := h
      obtain ⟨⟨val1, r3⟩, h3, h⟩ := h
      obtain ⟨d', hd, h⟩ := h
      exact absurd h (by simp)
    · simp only [Option.bind_eq_bind, Option.bind_eq_some] at h
      obtain ⟨v, hv, h⟩ := h
      obtain ⟨d', hd, h⟩ := h
      exact absurd h (by simp)

theorem changeBinaryIntegerM_err {e e' : Eng}
    (h : changeBinaryIntegerM e = some (.err, e')) :
    e'.testCase.data = e.testCase.data ∧ e'.testCase.size = e.testCase.size := by
  unfold changeBinaryIntegerM at h
  simp only [Option.bind_eq_bind, Option.bind_eq_some] at h
  obtain ⟨⟨binSize, r1⟩, h1, h⟩ := h
  by_cases hc : e.testCase.size < binSize
  · rw [if_pos hc] at h
    injection h with h2
    injection h2 with ho he
    subst he
    exact ⟨rfl, rfl⟩
  · rw [if_neg hc] at h
    simp only [Option.bind_eq_bind, Option.bind_eq_some] at h
    obtain ⟨⟨off, r2⟩, h2, h⟩ := h
    obtain ⟨⟨addRaw, r3⟩, h3, h⟩ := h
    obtain ⟨⟨val0, r4⟩, h4, h⟩ := h
    obtain ⟨⟨val2, r6⟩, h5, h⟩ := h
    obtain ⟨d', hd, h⟩ := h
    exact absurd h (by simp)

theorem crossOverM_err {e e' : Eng} (h : crossOverM e = some (.err, e')) :
    e'.testCase.data = e.testCase.data ∧ e'.testCase.size = e.testCase.size := by
  unfold crossOverM at h
  simp only [Option.bind_eq_bind, Option.bind_eq_some] at h
  obtain ⟨⟨data2, r1⟩, h1, h⟩ := h
  split at h
  · exact absurd h (by simp)
  · split at h
    · exact absurd h (by simp)
    · simp only [Option.bind_eq_bind, Option.bind_eq_some] at h
      obtain ⟨⟨out, r3⟩, h2, h⟩ := h
      exact absurd h (by simp)

theorem spliceM_err {e e' : Eng} (h : spliceM e = some (.err, e')) :
    e'.testCase.data = e.testCase.data ∧ e'.testCase.size = e.testCase.size := by
  unfold spliceM at h
  split at h
  · exact absurd h (by simp)
  · simp only [Option.bind_eq_bind, Option.bind_eq_some] at h
    obtain ⟨⟨spliceTc, r1⟩, h1, h⟩ := h
    obtain ⟨⟨splitIdx, r2⟩, h2, h⟩ := h
    obtain ⟨⟨spliceIdx, r3⟩, h3, h⟩ := h
    obtain ⟨pre, hpre, h⟩ := h
    obtain ⟨post, hpost, h⟩ := h
    exact absurd h (by simp)

theorem truncateM_err {tr : Nat → Nat → Nat} {e e' : Eng}
    (h : truncateM tr e = some (.err, e')) :
    e'.testCase.data = e.testCase.data ∧ e'.testCase.size = e.testCase.size := by
  unfold truncateM at h
  simp only [Option.bind_eq_bind, Option.bind_eq_some] at h
  obtain ⟨⟨k, r1⟩, h1, h⟩ := h
  exact absurd h (by simp)

theorem appendM_err {e e' : Eng} (h : appendM e = some (.err, e')) :
    e'.testCase.data = e.testCase.data ∧ e'.testCase.size = e.testCase.size := by
  unfold appendM at h
  split at h
  · exact absurd h (by simp)
  · simp only [Option.bind_eq_bind, Option.bind_eq_some] at h
    obtain ⟨⟨fromIdx, r1⟩, h1, h⟩ := h
    obtain ⟨seg, hseg, h⟩ := h
    exact absurd h (by simp)

theorem addFromMagicM_err {e e' : Eng} (h : addFromMagicM e = some (.err, e')) :
    e'.testCase.data = e.testCase.data ∧ e'.testCase.size = e.testCase.size := by
  unfold addFromMagicM at h
  simp only [Option.bind_eq_bind, Option.bind_eq_some] at h
  obtain ⟨⟨dice, r1⟩, h0, h⟩ := h
  obtain ⟨⟨val, valSize, r2⟩, h1, h⟩ := h
  split at h
  · injection h with h2
    injection h2 with ho he
    subst he
    exact ⟨rfl, rfl⟩
  · simp only [Option.bind_eq_bind, Option.bind_eq_some] at h
    obtain ⟨⟨idx, r3⟩, h2, h⟩ := h
    split at h
    · injection h with h3
      injection h3 with ho he
      subst he
      exact ⟨rfl, rfl⟩
    · split at h
      · simp only [Option.bind_eq_bind, Option.bind_eq_some] at h
        obtain ⟨d', hd, h⟩ := h
        exact absurd h (by simp)
      · split at h
        · exact absurd h (by simp)
        · simp only [Option.bind_eq_bind, Option.bind_eq_some] at h
          obtain ⟨d', hd, h⟩ := h
          exact absurd h (by simp)

theorem addFromDict_err {dict : List (List Nat)} {data : List Nat} {r : Rng}
    {d' : List Nat} {r' : Rng}
    (h : addFromDict dict data r = some (.err, d', r')) : d' = data := by
  unfold addFromDict at h
  split at h
  · exact absurd h (by simp)
  · simp only [Option.bind_eq_bind, Option.bind_eq_some] at h
    obtain ⟨⟨val, r1⟩, h1, h⟩ := h
    split at h
    · injection h with h2
      injection h2 with ho h3
      injection h3 with h4 h5
      exact h4.symm
    · simp only [Option.bind_eq_bind, Option.bind_eq_some] at h
      obtain ⟨⟨toIdx, r2⟩, h2, h⟩ := h
      split at h
      · simp only [Option.bind_eq_some] at h
        obtain ⟨d2, hd2, h⟩ := h
        exact absurd h (by simp)
      · simp only [Option.bind_eq_bind, Option.bind_eq_some] at h
        obtain ⟨d2, hd2, h⟩ := h
        exact absurd h (by simp)

theorem addWordFromDictM_err {e e' : Eng} (h : addWordFromDictM e = some (.err, e')) :
    e'.testCase.data = e.testCase.data ∧ e'.testCase.size = e.testCase.size := by
  unfold addWordFromDictM at h
  simp only [Option.bind_eq_bind, Option.bind_eq_some] at h
  obtain ⟨⟨o2, d2, r2⟩, h1, h⟩ := h
  injection h with h2
  injection h2 with ho he
  subst he
  subst ho
  have hd := addFromDict_err h1
  subst hd
  exact ⟨rfl, rfl⟩

theorem addWordFromTorcM_err {e e' : Eng} (h : addWordFromTorcM e = some (.err, e')) :
    e'.testCase.data = e.testCase.data ∧ e'.testCase.size = e.testCase.size := by
  unfold addWordFromTorcM at h
  split at h
  · injection h with h1
    injection h1 with ho he
    subst he
    exact ⟨rfl, rfl⟩
  · simp only [Option.bind_eq_bind, Option.bind_eq_some] at h
    obtain ⟨⟨o2, d2, r2⟩, h1, h⟩ := h
    injection h with h2
    injection h2 with ho he
    subst he
    subst ho
    have hd := addFromDict_err h1
    subst hd
    exact ⟨rfl, rfl⟩

theorem runMutator_err {tr : Nat → Nat → Nat} {s : STag} {e e' : Eng}
    (h : runMutator tr (.standard s) e = some (.err, e')) :
    e'.testCase.data = e.testCase.data ∧ e'.testCase.size = e.testCase.size := by
  cases s
  case shuffleBytes => exact shuffleBytesM_err h
  case eraseBytes => exact eraseBytesM_err h
  case insertBytes => exact insertBytesM_err h
  case swapNeighbors => exact swapNeighborsM_err h
  case swapEndianness => exact swapEndiannessM_err h
  case changeBit => exact changeBitM_err h
  case changeByte => exact changeByteM_err h
  case negateByte => exact negateByteM_err h
  case arithmeticWidth => exact arithmeticM_err h
  case copyPart => exact copyPartM_err h
  case changeASCIIInteger => exact changeAsciiIntegerM_err h
  case changeBinaryInteger => exact changeBinaryIntegerM_err h
  case crossOver => exact crossOverM_err h
  case splice => exact spliceM_err h
  case truncate => exact truncateM_err h
  case append => exact appendM_err h
  case addFromMagic => exact addFromMagicM_err h
  case addWordFromDict => exact addWordFromDictM_err h
  case addWordFromTORC => exact addWordFromTorcM_err h
  case ni => exact absurd h (by simp [runMutator])
  case grammarGenerator => exact absurd h (by simp [runMutator])

/-! ### Concrete sample values used by the witness theorems -/

/-- A truncation oracle satisfying the `tr s k ≤ s` bound (identity). -/
def demoTr : Nat → Nat → Nat := fun s _ => s

/-- A concrete PRNG whose stream is constantly zero. -/
def demoRng : Rng := { exponential := false, stream := fun _ => 0, pos := 0 }

/-- A concrete engine over a one-entry corpus with a single mutator. -/
def demoEng : Eng := {
  mutators := [.standard .negateByte],
  grammarStart := 0,
  maxMutationFactor := 10,
  prng := demoRng,
  printable := false,
  userTokenDict := [],
  mutationPasses := 1,
  torcTokenDict := [],
  testCase := TestCase.new [1, 2, 3],
  corpus := [[9, 8, 7]],
  grammar := { start := none, tokens := [], tokenMap := [] },
  niMutate := fun _ _ r _ => (none, r),
  crossFuel := 4 }

/-- The same engine with a one-byte test case (too short to shuffle). -/
def demoEngSmall : Eng := { demoEng with testCase := TestCase.new [5] }

/-- A two-token grammar whose start symbol is a singleton non-terminal. -/
def demoGrammar : Grammar :=
  { start := some 0, tokens := [.nonTerminal [1], .terminal [65]], tokenMap := [] }

/-- The optimized form of `demoGrammar`. -/
def demoOptimized : Grammar :=
  { start := some 0, tokens := [.terminal [65], .terminal [65]], tokenMap := [] }

/-! ### The claims -/

/-- C1: for every truncation oracle bounded by the current size, whenever
`MutationEngine::mutate` returns normally the resulting test case satisfies
`size == data.len()` and `0 ≤ data_ptr ≤ size`, regardless of the corpus, the
mutator list and the PRNG draws. -/
theorem mutate_testcase_invariant (tr : Nat → Nat → Nat)
    (htr : ∀ s k, tr s k ≤ s) {e e' : Eng} (h : mutate tr e = some e') :
    e'.testCase.size = e'.testCase.data.length ∧
      e'.testCase.dataPtr ≤ e'.testCase.size := by
  obtain ⟨h1, h2⟩ := mutate_inv htr h
  omega

theorem mutate_testcase_invariant_witness :
    ((mutate demoTr demoEng).getD demoEng).testCase.size
        = ((mutate demoTr demoEng).getD demoEng).testCase.data.length ∧
      ((mutate demoTr demoEng).getD demoEng).testCase.dataPtr
        ≤ ((mutate demoTr demoEng).getD demoEng).testCase.size :=
  mutate_testcase_invariant demoTr (fun s _ => Nat.le_refl s)
    (rfl : mutate demoTr demoEng = some ((mutate demoTr demoEng).getD demoEng))

/-- C2: every standard mutator that returns the `Err` outcome leaves the test
case's `data` and `size` fields exactly as they were before the call. -/
theorem standard_mutator_err_noop (tr : Nat → Nat → Nat) (s : STag) {e e' : Eng}
    (h : runMutator tr (.standard s) e = some (.err, e')) :
    e'.testCase.data = e.testCase.data ∧ e'.testCase.size = e.testCase.size :=
  runMutator_err h

theorem standard_mutator_err_noop_witness :
    demoEngSmall.testCase.data = demoEngSmall.testCase.data ∧
      demoEngSmall.testCase.size = demoEngSmall.testCase.size :=
  standard_mutator_err_noop demoTr .shuffleBytes
    (rfl : runMutator demoTr (.standard .shuffleBytes) demoEngSmall
      = some (.err, demoEngSmall))

/-- C3: for every width (covering the 8/16/32/64/128-bit types) and either
endianness, `TestCase::consume_int_range` returns `min` outright when
`min == max`, panics when `min > max`, and every `Ok(v)` it returns lies in
`[min, max]`, in both the unsigned and the signed instantiation. -/
theorem consume_int_range_in_range (bytes : Nat) (hb : 1 ≤ bytes) (le : Bool) :
    (∀ (tc : TestCase) (lo hi : Nat),
      (hi = lo → tc.consumeIntRangeU bytes le lo hi = .ok lo tc) ∧
      (hi < lo → tc.consumeIntRangeU bytes le lo hi = .panicked) ∧
      (hi < 2 ^ (8 * bytes) → ∀ (v : Nat) (tc' : TestCase),
        tc.consumeIntRangeU bytes le lo hi = .ok v tc' → lo ≤ v ∧ v ≤ hi)) ∧
    (∀ (tc : TestCase) (lo hi : Int),
      (hi = lo → tc.consumeIntRangeS bytes le lo hi = .ok lo tc) ∧
      (hi < lo → tc.consumeIntRangeS bytes le lo hi = .panicked) ∧
      (-(2 ^ (8 * bytes - 1) : Int) ≤ lo → hi ≤ 2 ^ (8 * bytes - 1) - 1 →
        ∀ (v : Int) (tc' : TestCase),
        tc.consumeIntRangeS bytes le lo hi = .ok v tc' → lo ≤ v ∧ v ≤ hi)) := by
  refine ⟨fun tc lo hi => ⟨?_, ?_, ?_⟩, fun tc lo hi => ⟨?_, ?_, ?_⟩⟩
  · intro heq
    unfold TestCase.consumeIntRangeU
    rw [if_pos heq]
  · intro hgt
    unfold TestCase.consumeIntRangeU
    rw [if_neg (by omega), if_pos (by omega)]
  · intro hhi v tc' h
    exact consumeIntRangeU_ok hhi h
  · intro heq
    unfold TestCase.consumeIntRangeS
    rw [if_pos heq]
  · intro hgt
    unfold TestCase.consumeIntRangeS
    rw [if_neg (by omega), if_pos (by omega)]
  · intro hlo hhi v tc' h
    exact consumeIntRangeS_ok hb hlo hhi h

theorem consume_int_range_in_range_witness : 5 ≤ 5 ∧ 5 ≤ 9 :=
  ((consume_int_range_in_range 2 (by decide) true).1
      (TestCase.new [0x12, 0x34]) 5 9).2.2 (by decide) 5
    { data := [0x12, 0x34], size := 2, dataPtr := 2, energy := 0, accessed := [] }
    rfl

/-- C4: `TestCase::consume_float` returns `0.0` on an exhausted buffer, reads
8 bytes little-endian as an IEEE-754 binary64 pattern when at least 8 bytes
remain, and with 1 to 7 remaining bytes reads them all, zero-pads to 8 bytes
on the high side via byte-order reversal and consumes the rest of the buffer;
in particular the single-byte buffer `[0xc0]` decodes to `-2.0`. -/
theorem consume_float_le_pad_spec :
    (∀ tc : TestCase, tc.dataPtr = tc.size → tc.consumeFloatBits = .ok 0 tc) ∧
    (∀ (tc : TestCase) (ds : List Nat), tc.dataPtr ≠ tc.size →
      ¬ tc.dataPtr + 8 > tc.size →
      sliceGet tc.data tc.dataPtr (tc.dataPtr + 8) = some ds →
      tc.consumeFloatBits = .ok (decodeLE ds) { tc with dataPtr := tc.dataPtr + 8 }) ∧
    (∀ (tc : TestCase) (ds : List Nat), tc.dataPtr ≠ tc.size →
      tc.dataPtr + 8 > tc.size →
      sliceGet tc.data tc.dataPtr (tc.dataPtr + (tc.size - tc.dataPtr)) = some ds →
      tc.consumeFloatBits =
        .ok (decodeLE ((ds.take (min 8 ds.length)
            ++ List.replicate (8 - min 8 ds.length) 0).reverse))
          { tc with dataPtr := tc.size }) ∧
    ((TestCase.new [0xc0]).consumeFloatBits =
        .ok 0xc000000000000000
          { data := [0xc0], size := 1, dataPtr := 1, energy := 0, accessed := [] } ∧
      decodeBinary64 0xc000000000000000 = -2) := by
  refine ⟨fun tc h0 => ?_, fun tc ds hne h8 hds => ?_, fun tc ds hne h8 hds => ?_,
    rfl, by norm_num [decodeBinary64]⟩
  · unfold TestCase.consumeFloatBits
    rw [if_pos h0]
  · unfold TestCase.consumeFloatBits
    rw [if_neg hne, if_neg h8, hds]
  · unfold TestCase.consumeFloatBits
    rw [if_neg hne, if_pos h8, hds]

/-- C5 (counterexample): a fresh `TestCase` over `[0x8a, 0x19, 0x0d]` answers
`consume_int::<u16>` big-endian with `0x8a19` and cursor 2, not the `0x190d`
and cursor 3 the spec's scenario S3 states. -/
theorem consume_int_u16_be_fresh_counterexample :
    (TestCase.new [0x8a, 0x19, 0x0d]).consumeInt 2 false false =
        .ok 0x8a19
          { data := [0x8a, 0x19, 0x0d], size := 3, dataPtr := 2,
            energy := 0, accessed := [] } ∧
      (0x8a19 : Nat) ≠ 0x190d :=
  ⟨rfl, by decide⟩

/-- C5 (amended): on the buffer `[0x8a, 0x19, 0x0d]`, first consuming a `u8`
(which yields `0x8a` and cursor 1) and then `consume_int::<u16>` big-endian
yields `0x190d` with the cursor at 3, as in the source's own test. -/
theorem consume_int_u16_be_after_u8 :
    (TestCase.new [0x8a, 0x19, 0x0d]).consumeInt 1 false false =
        .ok 0x8a
          { data := [0x8a, 0x19, 0x0d], size := 3, dataPtr := 1,
            energy := 0, accessed := [] } ∧
      ({ data := [0x8a, 0x19, 0x0d], size := 3, dataPtr := 1,
         energy := 0, accessed := [] } : TestCase).consumeInt 2 false false =
        .ok 0x190d
          { data := [0x8a, 0x19, 0x0d], size := 3, dataPtr := 3,
            energy := 0, accessed := [] } :=
  ⟨rfl, rfl⟩

/-- C6: `Grammar::generate` terminates for every compiled grammar, start
token and PRNG state: a call at depth above 128 returns at once without
appending to the output buffer, and no run of the generator exhausts the
recursion fuel the embedding supplies (fuel `129 - depth + 1` covers the
whole recursion, which is the termination argument for the source). -/
theorem grammar_generate_depth_cap_and_termination (g : Grammar)
    (depth id : Nat) (rng : Rng) (out : List Nat) :
    (128 < depth → g.generate depth id rng out = .ok rng out) ∧
    g.generate depth id rng out ≠ .fuelOut := by
  constructor
  · intro hd
    unfold Grammar.generate generateAux
    rw [if_pos hd]
  · unfold Grammar.generate
    exact (generate_noFuelOut g (129 - depth + 1)).1 depth id rng out (by omega)

/-- C7: `Grammar::optimize` is idempotent: whenever it returns an optimized
grammar, running it again on that grammar (with any sweep budget) returns the
same grammar unchanged — the output is a fixed point of the rewrite rules. -/
theorem grammar_optimize_idempotent {g g' : Grammar} {fuel : Nat}
    (h : Grammar.optimize g fuel = some g') :
    ∀ fuel2 : Nat, Grammar.optimize g' (fuel2 + 1) = some g' := by
  intro fuel2
  unfold Grammar.optimize at h
  cases hT : optLoop fuel { tokens := g.tokens, nops := [], changed := true } with
  | none =>
      rw [hT] at h
      exact absurd h (by simp)
  | some T =>
      rw [hT] at h
      simp only [Option.map_some', Option.some.injEq] at h
      obtain ⟨N, hsw⟩ := optLoop_exit fuel _ T hT
      have hsw0 : optSweep { tokens := T, nops := [], changed := false }
          = some { tokens := T, nops := [], changed := false } := by
        unfold optSweep at hsw ⊢
        exact foldlM_optStep_dropNops _ T N hsw
      subst h
      unfold Grammar.optimize
      have hloop : optLoop (fuel2 + 1) { tokens := T, nops := [], changed := true }
          = some T := by
        have hbody : optLoop (fuel2 + 1) { tokens := T, nops := [], changed := true }
            = (optSweep { tokens := T, nops := [], changed := false }).bind
                (fun st' => if st'.changed then optLoop fuel2 st' else some st'.tokens) :=
          rfl
        rw [hbody, hsw0]
        rfl
      rw [show ({ g with tokens := T } : Grammar).tokens = T from rfl, hloop]
      rfl

theorem grammar_optimize_idempotent_witness :
    Grammar.optimize demoOptimized (0 + 1) = some demoOptimized :=
  grammar_optimize_idempotent
    (rfl : Grammar.optimize demoGrammar 3 = some demoOptimized) 0

/-- C8: `Rng::shuffle` swaps a 2-element slice unconditionally, whatever the
PRNG state, and on any slice its result is a permutation of the input (the
multiset of elements is preserved). -/
theorem shuffle_two_swap_and_perm :
    (∀ (r : Rng) (a b : Nat), shuffle r [a, b] = some ([b, a], r)) ∧
    (∀ (r : Rng) (l : List Nat) (res : List Nat × Rng),
      shuffle r l = some res → res.1.Perm l) := by
  constructor
  · intro r a b
    rfl
  · intro r l res h
    unfold shuffle at h
    split at h
    · rename_i hlen
      simp only [beq_iff_eq] at hlen
      cases h
      exact listSwap_perm l 0 1 (by omega) (by omega)
    · refine fyLoop_perm _ r l res ?_ h
      intro i hi
      have h1 : i ∈ (List.range l.length).reverse := List.dropLast_subset _ hi
      rw [List.mem_reverse, List.mem_range] at h1
      exact h1

/-- C9 (counterexample): two `Xorshift64` generators both built with seed 0
read the timestamp counter, and distinct counter values give distinct output
streams already at the first `rand()` call — seed 0 alone does not make the
streams equal, even accounting for the entropy XOR. -/
theorem xorshift_seed0_counterexample :
    xorshiftOutput (Xorshift64.new 0 0) 0 ≠ xorshiftOutput (Xorshift64.new 0 1) 0 := by
  decide

/-- C9 (amended): for every non-zero seed the timestamp counter is never
read, so two `Xorshift64` generators built from the same seed produce
identical output streams whatever counters they would have read. -/
theorem xorshift_nonzero_seed_deterministic (seed tsc1 tsc2 : Nat)
    (hs : seed ≠ 0) :
    ∀ n, xorshiftOutput (Xorshift64.new seed tsc1) n
        = xorshiftOutput (Xorshift64.new seed tsc2) n := by
  intro n
  have hnew : ∀ tsc : Nat, Xorshift64.new seed tsc = ⟨seed ^^^ ENTROPY ^^^ 0⟩ := by
    intro tsc
    unfold Xorshift64.new generateSeeds
    rw [if_pos (by omega)]
    simp only [if_neg hs]
    rfl
  rw [hnew tsc1, hnew tsc2]

theorem xorshift_nonzero_seed_deterministic_witness :
    xorshiftOutput (Xorshift64.new 5 0) 0 = xorshiftOutput (Xorshift64.new 5 1) 0 :=
  xorshift_nonzero_seed_deterministic 5 0 1 (by decide) 0

/-- C10: `Rng::rand_byte` reduces the 64-bit draw modulo 255, so it returns a
value in `[0, 254]` and never `0xff`; consequently no byte of
`rand_byte_vec`, and no byte `ensure_printable` produces with the printable
flag off, is ever 255. -/
theorem rand_byte_never_255 :
    (∀ r : Rng, (randByte r).1 ≤ 254) ∧
    (∀ (r : Rng) (n b : Nat), b ∈ (randByteVec r n).1 → b ≠ 255) ∧
    (∀ r : Rng, (ensurePrintable false r).1 ≠ 255) := by
  refine ⟨fun r => ?_, fun r n b hb => ?_, fun r => ?_⟩
  · have := randByte_lt r
    omega
  · have := mem_randByteVec hb
    omega
  · show (randByte r).1 ≠ 255
    have := randByte_lt r
    omega

end Hantu
